import Mathlib

/-!
Verification of the roboversion/autoversion repository.

The repository ships two generations of the same design:
* `roboversion/version.py` — the current PEP440 `Version` model
  (structured fields, `__str__` canonical serialization, `from_str`
  regex parser);
* `autoversion/version.py` — the older model (`Release`, `Prerelease`,
  `LocalVersion`, `Version` with `get_bumped`) used by
* `autoversion/git.py` — the resolver `Reference.get_version`, which
  queries git through subprocess calls.

This file shallowly embeds those modules.  Python strings are embedded
as `List Char`; machine integers are `Nat`/`Int`; Python exceptions are
an explicit `PyError` error type threaded through `Except`; the git
subprocess boundary is an oracle structure `GitRepo` supplying the
results of the underlying `git` invocations.
-/

/-- Python exception kinds that the embedded code can raise.
`calledProcessError` carries the subprocess return code
(`subprocess.CalledProcessError.returncode`). -/
inductive PyError where
  | calledProcessError (returncode : Int)
  | valueError
  | typeError
  | attributeError
  | unboundLocalError
  | indexError
deriving DecidableEq, Repr

/-- Prerelease categories.  Both modules define the same three-member
IntEnum (`roboversion.Version.PrereleaseCategory` with ALPHA = 1,
BETA = 2, RELEASE_CANDIDATE = 3, and `autoversion.Prerelease.Category`
identically). -/
inductive PrereleaseCategory where
  | alpha
  | beta
  | releaseCandidate
deriving DecidableEq, Repr

/-- Character is an ASCII decimal digit, as Python's `\d` with
`re.ASCII` / on ASCII input. -/
def isDigitChar (c : Char) : Bool := c.isDigit

/-- Character class `[a-z0-9]` under `re.IGNORECASE`: ASCII letters and
digits (the local-version segment alphabet). -/
def isAlnumChar (c : Char) : Bool := (c.toLower.isLower || c.isDigit)

/-- Character class `[.\-_]`, the PEP440 separator set. -/
def isSepChar (c : Char) : Bool := (c = '.' || c = '-' || c = '_')

/-- Decimal digit character for a digit value, as produced by Python's
`str` on a non-negative int (one digit at a time). -/
def digitChar (d : Nat) : Char :=
  match d with
  | 0 => '0' | 1 => '1' | 2 => '2' | 3 => '3' | 4 => '4'
  | 5 => '5' | 6 => '6' | 7 => '7' | 8 => '8' | _ => '9'

/-- Fuelled helper for `natChars`; the fuel is a Lean artifact that
keeps the recursion structural (any fuel above the number itself is
enough, see `natCharsF_congr`). -/
def natCharsF : Nat → Nat → List Char
  | 0, _ => []
  | fuel + 1, n =>
    if n < 10 then [digitChar n]
    else natCharsF fuel (n / 10) ++ [digitChar (n % 10)]

/-- Decimal representation of a natural number, embedding Python's
`str(x)` for a non-negative int: most significant digit first, no sign,
no leading zeros (except for `0` itself). -/
def natChars (n : Nat) : List Char := natCharsF (n + 1) n

/-- Maximal leading run of decimal digits and the remaining input: the
behaviour of a greedy `\d+`/`\d*` at the current position. -/
def takeDigits : List Char → List Char × List Char
  | [] => ([], [])
  | c :: r =>
    if isDigitChar c then
      let p := takeDigits r
      (c :: p.1, p.2)
    else ([], c :: r)

/-- Numeric value of a digit string, embedding Python's `int(...)` on a
match of `\d+`. -/
def digitsVal (ds : List Char) : Nat :=
  ds.foldl (fun a c => 10 * a + (c.toNat - 48)) 0

/-- Input begins with a decimal digit. -/
def digitHead : List Char → Bool
  | c :: _ => isDigitChar c
  | [] => false

/-- Input begins with a dot followed by a decimal digit (the shape that
extends a release tuple by one more component). -/
def dotDigitHead : List Char → Bool
  | '.' :: c :: _ => isDigitChar c
  | _ => false

/-- Inclusion of the non-negative machine integers into the signed
ones (Python ints are signed; values validated non-negative are carried
as `Nat`). -/
def natToInt (n : Nat) : Int := Int.ofNat n

/-- Strip a literal keyword (given lowercase) case-insensitively if it
is present, otherwise leave the input unchanged: the behaviour of a
greedy optional literal group such as `(lpha)?` under `re.IGNORECASE`.
(Greedy is equivalent to unconditional here: whenever the literal is
present, the letters it covers cannot be matched by any later part of
the enclosing version expression, so a shorter match cannot complete.) -/
def stripLit (kw : List Char) (s : List Char) : List Char :=
  if (s.take kw.length).map Char.toLower = kw then s.drop kw.length else s

namespace Roboversion

/-- The `roboversion.version.Version` aggregate: field values as held by
a constructed instance.  `epoch` is the non-negative int (default 0);
`release` is the tuple of non-negative components; `prerelease` is the
optional `(PrereleaseCategory, value)` pair; `post`/`dev` are optional
non-negative ints; `loc` embeds the attribute `local` (a Lean keyword),
holding the separator-normalized local version string the property
setter stores (`'.'.join(self._SEPARATOR_EXPRESSION.split(value))`). -/
structure Version where
  epoch : Nat
  release : List Nat
  prerelease : Option (PrereleaseCategory × Nat)
  post : Option Nat
  dev : Option Nat
  loc : Option (List Char)
deriving DecidableEq, Repr

/-- Normalized local version strings as stored by the `local` setter:
one or more ASCII alphanumeric segments joined by single dots.  Checked
structurally: an alphanumeric head and a greedy scan that consumes the
whole input. -/
def localChunk : List Char → List Char × List Char
  | [] => ([], [])
  | c :: r =>
    if isAlnumChar c then
      let p := localChunk r
      (c :: p.1, p.2)
    else if isSepChar c then
      match r with
      | c2 :: r2 =>
        if isAlnumChar c2 then
          let p := localChunk r2
          ('.' :: c2 :: p.1, p.2)
        else ([], c :: r)
      | [] => ([], [c])
    else ([], c :: r)

/-- Validity of a stored (already normalized) local version value. -/
def localOK (l : List Char) : Bool :=
  match l with
  | [] => false
  | c :: _ => isAlnumChar c && decide (localChunk l = (l, []))

/-- Validity of a `Version` value as enforced by the constructor and
property setters: non-empty release (components are `Nat`, so the
non-negativity checks hold by construction) and a well-formed stored
local version. -/
def valid (v : Version) : Bool :=
  !v.release.isEmpty &&
    (match v.loc with
     | some l => localOK l
     | none => true)

/-- Dot-joined continuation of a release tuple:
`''.join('.' + str(x) for x in rest)`. -/
def dotComps : List Nat → List Char
  | [] => []
  | c :: cs => '.' :: natChars c ++ dotComps cs

/-- Serialization of the release tuple:
`'.'.join(str(x) for x in self.release)`. -/
def releaseChars : List Nat → List Char
  | [] => []
  | c :: cs => natChars c ++ dotComps cs

/-- Prerelease prefixes `_PRERELEASE_PREFIXES`: ALPHA ↦ "a",
BETA ↦ "b", RELEASE_CANDIDATE ↦ "rc". -/
def catChars : PrereleaseCategory → List Char
  | .alpha => ['a']
  | .beta => ['b']
  | .releaseCandidate => ['r', 'c']

/-- Epoch piece of `Version.__str__`: printed only when nonzero
(`if self.epoch:`). -/
def epochChars (e : Nat) : List Char :=
  if e ≠ 0 then natChars e ++ ['!'] else []

/-- Prerelease piece of `Version.__str__`: printed whenever set (a
tuple is always truthy in Python), as prefix followed by the value. -/
def preChars : Option (PrereleaseCategory × Nat) → List Char
  | some (c, n) => catChars c ++ natChars n
  | none => []

/-- Post piece of `Version.__str__`: `if self.post:` is false both for
`None` and for `0`, so a zero post value is omitted. -/
def postChars : Option Nat → List Char
  | some p => if p ≠ 0 then '.' :: 'p' :: 'o' :: 's' :: 't' :: natChars p else []
  | none => []

/-- Dev piece of `Version.__str__`: `if self.dev:` is false both for
`None` and for `0`, so a zero dev value is omitted. -/
def devChars : Option Nat → List Char
  | some d => if d ≠ 0 then '.' :: 'd' :: 'e' :: 'v' :: natChars d else []
  | none => []

/-- Local piece of `Version.__str__`: `if self.local:` is false for
`None` and for an empty string. -/
def locChars : Option (List Char) → List Char
  | some l => if l ≠ [] then '+' :: l else []
  | none => []

/-- Embedding of `Version.__str__` as the concatenation of its
pieces. -/
def versionChars (v : Version) : List Char :=
  epochChars v.epoch ++ releaseChars v.release ++ preChars v.prerelease
    ++ postChars v.post ++ devChars v.dev ++ locChars v.loc

/-- Epoch part of `Version.EXPRESSION`: `((?P<epoch>\d+)!)?`.  Greedy is
deterministic: `\d+` must take the whole digit run ('!' is not a digit),
and if the run is not followed by '!' the group cannot match; if it is,
skipping the group would leave '!' unmatchable by every later part. -/
def parseEpoch (s : List Char) : Option Nat × List Char :=
  let p := takeDigits s
  match p.1, p.2 with
  | [], _ => (none, s)
  | _ :: _, '!' :: r2 => (some (digitsVal p.1), r2)
  | _ :: _, _ => (none, s)

/-- Greedy scan of `\d+(\.\d+)*` after its first digit: accumulates the
current component and starts a new component at each `.` that is
followed by a digit.  Maximal munch is deterministic: no later part of
the version expression can match at a digit or at a dot followed by a
digit. -/
def releaseLexAux (acc : Nat) : List Char → List Nat × List Char
  | [] => ([acc], [])
  | c :: r =>
    if isDigitChar c then releaseLexAux (10 * acc + (c.toNat - 48)) r
    else if c = '.' then
      match r with
      | c2 :: r2 =>
        if isDigitChar c2 then
          let p := releaseLexAux (c2.toNat - 48) r2
          (acc :: p.1, p.2)
        else ([acc], c :: r)
      | [] => ([acc], [c])
    else ([acc], c :: r)

/-- Release part of `Version.EXPRESSION` (`RELEASE_EXPRESSION`):
`(?P<components>\d+(\.\d+)*)`, with `from_str`'s
`match['release'].split('.')` and per-component `int` conversion. -/
def parseRelease (s : List Char) : Option (List Nat × List Char) :=
  match s with
  | c :: r => if isDigitChar c then some (releaseLexAux (c.toNat - 48) r) else none
  | [] => none

/-- Category alternation of `PRERELEASE_EXPRESSION`:
`(?P<alpha>a(lpha)?)|(?P<beta>b(eta)?)|(?P<release_candidate>((r?c)|(pre(view)?)))`,
case-insensitive, alternatives tried left to right.  The optional
literal tails (`lpha`, `eta`, `view`) are stripped greedily, which is
deterministic (see `stripLit`). -/
def parseCat : List Char → Option (PrereleaseCategory × List Char)
  | [] => none
  | c :: r =>
    if c.toLower = 'a' then some (.alpha, stripLit ['l', 'p', 'h', 'a'] r)
    else if c.toLower = 'b' then some (.beta, stripLit ['e', 't', 'a'] r)
    else if c.toLower = 'r' then
      match r with
      | c2 :: r2 => if c2.toLower = 'c' then some (.releaseCandidate, r2) else none
      | [] => none
    else if c.toLower = 'c' then some (.releaseCandidate, r)
    else if c.toLower = 'p' then
      match r with
      | c2 :: c3 :: r3 =>
        if c2.toLower = 'r' && c3.toLower = 'e' then
          some (.releaseCandidate, stripLit ['v', 'i', 'e', 'w'] r3)
        else none
      | _ => none
    else none

/-- Optional value tail of the prerelease group: `([.\-_]?(?P<value>\d+))?`,
with `from_str`'s default of 0 when the digits are absent.  Greedy is
deterministic: a separator is consumed only when digits follow, and
consumed digits could not be matched by any later part. -/
def parsePreValue (s : List Char) : Nat × List Char :=
  match s with
  | c :: r =>
    if isDigitChar c then
      let p := takeDigits (c :: r)
      (digitsVal p.1, p.2)
    else if isSepChar c then
      match r with
      | c2 :: r2 =>
        if isDigitChar c2 then
          let p := takeDigits (c2 :: r2)
          (digitsVal p.1, p.2)
        else (0, c :: r)
      | [] => (0, [c])
    else (0, c :: r)
  | [] => (0, [])

/-- Prerelease group of `Version.EXPRESSION`:
`([.\-_]?(?P<prerelease>PRERELEASE_EXPRESSION))?`.  The leading
separator is consumed only when a category follows it; if the category
alternation fails the whole group matches empty.  (When the group does
match, skipping it instead can never produce a full match: the
category letters it covers cannot start the post, dev or local parts.) -/
def parsePre (s : List Char) : Option (PrereleaseCategory × Nat) × List Char :=
  let attempt :=
    match s with
    | c :: r => if isSepChar c then parseCat r else parseCat s
    | [] => none
  match attempt with
  | some (cat, rest) =>
    let p := parsePreValue rest
    (some (cat, p.1), p.2)
  | none => (none, s)

/-- Post keyword `(post|r(ev)?)` case-insensitively: `post` is tried
before `r(ev)?` per the alternation order, and `rev` before bare `r`
(greedy; an unconsumed `ev` could not be matched by any later part). -/
def parsePostKw (s : List Char) : Option (List Char) :=
  if (s.take 4).map Char.toLower = ['p', 'o', 's', 't'] then some (s.drop 4)
  else
    match s with
    | c :: r => if c.toLower = 'r' then some (stripLit ['e', 'v'] r) else none
    | [] => none

/-- Optional digits after the post keyword: `(?P<post>\d+)?`. -/
def parseOptDigits (s : List Char) : Option Nat × List Char :=
  match s with
  | c :: r =>
    if isDigitChar c then
      let p := takeDigits (c :: r)
      (some (digitsVal p.1), p.2)
    else (none, c :: r)
  | [] => (none, [])

/-- Post part of `Version.EXPRESSION`:
`((([.\-_]?(post|r(ev)?)(?P<post>\d+)?)|-(?P<implicit_post>\d+)))?`,
combined with `from_str`'s extraction (`post` when its digits matched,
else `implicit_post`; either way absent when no digits matched).
Returns the extracted optional post value and the remaining input. -/
def parsePost (s : List Char) : Option Nat × List Char :=
  let kwAttempt :=
    match s with
    | c :: r => if isSepChar c then parsePostKw r else parsePostKw s
    | [] => none
  match kwAttempt with
  | some rest => parseOptDigits rest
  | none =>
    match s with
    | '-' :: c :: r =>
      if isDigitChar c then
        let p := takeDigits (c :: r)
        (some (digitsVal p.1), p.2)
      else (none, s)
    | _ => (none, s)

/-- Dev keyword with its required digits: `dev(?P<dev>\d+)`. -/
def parseDevKw (s : List Char) : Option (Nat × List Char) :=
  if (s.take 3).map Char.toLower = ['d', 'e', 'v'] then
    match s.drop 3 with
    | c :: r =>
      if isDigitChar c then
        let p := takeDigits (c :: r)
        some (digitsVal p.1, p.2)
      else none
    | [] => none
  else none

/-- Dev part of `Version.EXPRESSION`: `([.\-_]?dev(?P<dev>\d+))?`. -/
def parseDev (s : List Char) : Option Nat × List Char :=
  let attempt :=
    match s with
    | c :: r => if isSepChar c then parseDevKw r else parseDevKw s
    | [] => none
  match attempt with
  | some (n, rest) => (some n, rest)
  | none => (none, s)

/-- Local part of `Version.EXPRESSION`:
`(\+(?P<local>[a-z0-9]+([.\-_][a-z0-9]+)*))?` (case-insensitive),
combined with the `local` setter's separator normalization.  The
returned chars are the stored normalized value. -/
def parseLocal (s : List Char) : Option (List Char) × List Char :=
  match s with
  | '+' :: c :: r =>
    if isAlnumChar c then
      let p := localChunk (c :: r)
      (some p.1, p.2)
    else (none, '+' :: c :: r)
  | _ => (none, s)

/-- Leading `v?` of `Version.EXPRESSION`, case-insensitive: consumed
when present (deterministic: no later part matches at a 'v'). -/
def stripV (s : List Char) : List Char :=
  match s with
  | c :: r => if c.toLower = 'v' then r else s
  | [] => s

/-- Embedding of `Version.from_str`: `EXPRESSION.fullmatch` followed by
field extraction and construction.  `none` models the `ValueError`
raised on a malformed version string. -/
def from_str (s : List Char) : Option Version :=
  let ep := parseEpoch (stripV s)
  match parseRelease ep.2 with
  | none => none
  | some (rel, s3) =>
    let pre := parsePre s3
    let pst := parsePost pre.2
    let dv := parseDev pst.2
    let lc := parseLocal dv.2
    match lc.2 with
    | [] =>
      some
        { epoch := ep.1.getD 0
          release := rel
          prerelease := pre.1
          post := pst.1
          dev := dv.1
          loc := lc.1 }
    | _ :: _ => none

end Roboversion

namespace Autoversion

/-- One stored segment of an `autoversion.version.LocalVersion`:
`LocalVersion.from_str` tries `int(segment)` on each separator-split
segment — which succeeds exactly for the digit-only segments, dropping
any leading zeros — and keeps every other segment as its string. -/
inductive LocalSeg where
  | num (n : Nat)
  | txt (s : String)
deriving DecidableEq, Repr

namespace LocalVersion

/-- Greedy scan of `LocalVersion.EXPRESSION` =
`[a-z0-9]+([.\-_][a-z0-9]+)*` (case-insensitive), splitting the
consumed prefix at the separators: returns the segments (as character
lists) and the unconsumed rest.  The head of the first segment is the
caller's responsibility; `fullmatch` holds exactly when the head is
alphanumeric and the rest is empty (the quantifiers are greedy, and
with nothing after the expression giving characters back can never
produce a match). -/
def segScan : List Char → List (List Char) × List Char
  | [] => ([[]], [])
  | c :: r =>
    if isAlnumChar c then
      let p := segScan r
      match p.1 with
      | seg :: segs => ((c :: seg) :: segs, p.2)
      | [] => ([[c]], p.2)
    else if isSepChar c then
      match r with
      | c2 :: r2 =>
        if isAlnumChar c2 then
          let p := segScan (c2 :: r2)
          ([] :: p.1, p.2)
        else ([[]], c :: r)
      | [] => ([[]], [c])
    else ([[]], c :: r)

/-- Embedding of `LocalVersion.from_str`: a `ValueError` unless the
whole string matches `EXPRESSION`, then the separator-split segments
with digit-only segments converted by `int(...)` and all others kept
as strings.  (The `string.strip()` before the split is the identity on
any string the anchored `fullmatch` accepted.) -/
def from_str (s : String) : Except PyError (List LocalSeg) :=
  match s.toList with
  | [] => .error .valueError
  | c :: r =>
    if isAlnumChar c then
      let p := segScan (c :: r)
      if p.2 = [] then
        .ok (p.1.map (fun seg =>
          if seg.all isDigitChar then LocalSeg.num (digitsVal seg)
          else LocalSeg.txt (String.mk seg)))
      else .error .valueError
    else .error .valueError

/-- Characters of one segment under `str(x)`: the decimal digits for
an int segment, the string itself otherwise. -/
def segChars : LocalSeg → List Char
  | .num n => natChars n
  | .txt s => s.toList

/-- Characters of `LocalVersion.__str__`:
`'.'.join(str(x) for x in self.segments)`. -/
def strChars : List LocalSeg → List Char
  | [] => []
  | [x] => segChars x
  | x :: xs => segChars x ++ '.' :: strChars xs

/-- Embedding of `LocalVersion.__str__`. -/
def str (segs : List LocalSeg) : String := String.mk (strChars segs)

end LocalVersion

/-- The `autoversion.version.Version` aggregate.  The constructor
checks `epoch < 0` but never stores the epoch, so no epoch field
exists on instances.  `prerelease` embeds a `Prerelease` object as its
`(category, value)` pair; `Prerelease.__init__` does not validate the
value's sign, so the value is an `Int`.  `post` and `dev` are validated
non-negative.  `loc` embeds the attribute `local`: a string handed to
the constructor goes through `LocalVersion.from_str` (validation plus
int-normalization of digit-only segments), and the stored value is the
resulting segment tuple. -/
structure Version where
  release : List Nat
  prerelease : Option (PrereleaseCategory × Int)
  post : Option Nat
  dev : Option Nat
  loc : Option (List LocalSeg)
deriving DecidableEq, Repr

namespace Release

/-- Serialization of `Release.__str__`:
`'.'.join(str(x) for x in self.components)`. -/
def str : List Nat → List Char
  | [] => []
  | c :: cs => natChars c ++ Roboversion.dotComps cs

/-- Embedding of `Release.get_bumped` composed with the validation in
`Release.__init__`.  With `index=None` the Python code uses
`len(self.components) - 1`, which is `-1` on an empty components tuple
and makes `new_components[index] += increment` raise `IndexError`;
otherwise `new_components` is `components` truncated/zero-padded to
`index + 1` entries, the entry at `index` is incremented (over `Int`),
zeros are appended up to the original length, and the constructor
raises `ValueError` if any resulting component is negative. -/
def get_bumped (c : List Nat) (index : Option Nat) (increment : Int) :
    Except PyError (List Nat) :=
  match index, c with
  | none, [] => .error .indexError
  | _, _ =>
    let i := match index with | some i => i | none => c.length - 1
    let padded : List Int :=
      ((c.take (i + 1)).map natToInt) ++
        List.replicate ((i + 1) - c.length) 0
    let bumped : List Int :=
      (padded.set i (padded.getD i 0 + increment)) ++
        List.replicate (c.length - (i + 1)) (0 : Int)
    if bumped.all (fun x => 0 ≤ x) then .ok (bumped.map Int.toNat)
    else .error .valueError

end Release

namespace Version

/-- Embedding of `autoversion.version.Version.get_bumped`.  Branch
order follows the source: the `release` branch first (constructing a
fresh version that drops every other field); then the
release-index/field conflict check (`ValueError`); then `prerelease`
(where `self.prerelease.get_bumped(...)` on a version without a
prerelease is an `AttributeError` on `None`, and `Prerelease` applies
no sign validation); then `post`, whose body evaluates
`self.post + increment` (a `TypeError` when `post` is `None`) and then
returns `self.__class__(release=release, ...)` where the local name
`release` was only ever assigned inside the untaken `release` branch —
an unconditional `UnboundLocalError`; then `dev` (a `TypeError` when
`dev` is `None`, a `ValueError` from the constructor when the bumped
value is negative, and the `local` field is dropped); otherwise the
final `ValueError` for a non-bumpable field. -/
def get_bumped (v : Version) (release_index : Option Nat) (field : String)
    (increment : Int) : Except PyError Version :=
  if field = "release" then
    match Release.get_bumped v.release release_index increment with
    | .ok r => .ok { release := r, prerelease := none, post := none, dev := none, loc := none }
    | .error e => .error e
  else if release_index.isSome then .error .valueError
  else if field = "prerelease" then
    match v.prerelease with
    | none => .error .attributeError
    | some (cat, value) =>
      .ok { release := v.release, prerelease := some (cat, value + increment),
            post := none, dev := none, loc := none }
  else if field = "post" then
    match v.post with
    | none => .error .typeError
    | some _ => .error .unboundLocalError
  else if field = "dev" then
    match v.dev with
    | none => .error .typeError
    | some d =>
      if (d : Int) + increment < 0 then .error .valueError
      else .ok { release := v.release, prerelease := v.prerelease,
                 post := v.post, dev := some ((d : Int) + increment).toNat,
                 loc := none }
  else .error .valueError

end Version

end Autoversion

namespace Git

/-- Oracle for the git subprocess boundary used by
`autoversion.git.Reference`.  Each field supplies the result of the
corresponding `git` invocation on the repository this resolution runs
against:
* `branchOf name` — `git rev-parse --abbrev-ref name` (the `branch`
  property's resolved branch name);
* `commits name since` — `git rev-list --count name [^since]`
  (`get_commits_in_history`);
* `abbrevOf name` — `git rev-list --abbrev-commit --max-count=1 name`
  (the `hash_abbreviation` property);
* `describeTag name` — the outcome of
  `get_commits_since_tagged_version` for `name`: distance since the
  last PEP440 tag (`none` when the ref is exactly at the tag), the
  parsed tag `Version`, and the tag string; an `.error code` is a
  `subprocess.CalledProcessError` with that return code escaping it. -/
structure GitRepo where
  branchOf : String → String
  commits : String → Option String → Nat
  abbrevOf : String → String
  describeTag : String → Except Int (Option Nat × Autoversion.Version × String)

/-- The `local` argument of `get_version`: the `AUTO_LOCAL` sentinel
default, an explicit `None`, or a caller-supplied string. -/
inductive LocalParam where
  | autoLocal
  | noLocal
  | explicitLocal (s : String)
deriving DecidableEq, Repr

/-- Configured stream branches in the order `Reference.get_version`
builds `prerelease_prefixes`: the dict is created with keys
`'rc', 'b', 'a'` mapped to the candidate, beta and alpha branches and
then filtered to the non-`None` entries, preserving insertion order.
Each prefix is recorded as its `PrereleaseCategory`
(`Prerelease.from_str` parses `'rc'`/`'b'`/`'a'` followed by digits to
exactly that category and value). -/
def streamList (candidate beta alpha : Option String) :
    List (PrereleaseCategory × String) :=
  (match candidate with | some b => [(PrereleaseCategory.releaseCandidate, b)] | none => [])
  ++ (match beta with | some b => [(PrereleaseCategory.beta, b)] | none => [])
  ++ (match alpha with | some b => [(PrereleaseCategory.alpha, b)] | none => [])

/-- Warning text of the `logger.warning` call in the zero-distance
degenerate branch of `get_version` (with `%s` interpolated). -/
def warnMsg (name : String) : String :=
  name ++ " is a development ref in the history of an upstream" ++
    " prerelease branch; output version will be local only"

/-- Final component assembly shared by the tail of `get_version`:
`post`, when supplied, pops the `dev` component and replaces it; the
`local` component string is the abbreviated hash under the `AUTO_LOCAL`
default, `None` when explicitly suppressed, or the supplied string.
The concluding `return Version(**components)` routes a string local
through `LocalVersion.from_str`, whose `ValueError` on an invalid
string propagates out of the call. -/
def finishComponents (repo : GitRepo) (name : String) (rel : List Nat)
    (pre : Option (PrereleaseCategory × Int)) (dev : Option Nat)
    (post : Option Nat) (localP : LocalParam) :
    Except PyError (List String × Autoversion.Version) :=
  let postDev : Option Nat × Option Nat :=
    match post with
    | some p => (some p, none)
    | none => (none, dev)
  let locStr : Option String :=
    match localP with
    | .autoLocal => some (repo.abbrevOf name)
    | .noLocal => none
    | .explicitLocal s => some s
  match locStr with
  | none =>
    .ok ([], { release := rel, prerelease := pre, post := postDev.1,
               dev := postDev.2, loc := none })
  | some s =>
    match Autoversion.LocalVersion.from_str s with
    | .ok segs =>
      .ok ([], { release := rel, prerelease := pre, post := postDev.1,
                 dev := postDev.2, loc := some segs })
    | .error e => .error e

/-- Embedding of `autoversion.git.Reference.get_version` for the ref
`name` against the oracle `repo`.  The successful result pairs the
list of warnings the call logs with the returned `Version`.

The try/except around `get_commits_since_tagged_version` handles a
`CalledProcessError` only when its return code is
`_NO_TAG_RETURN_CODE = 128`; any other error is re-raised unchanged.
In the handled branch the code evaluates
`self.get_commits_in_history()` and then `Version.from_datetime()` —
but `autoversion.version.Version` defines no `from_datetime`
attribute, so the lookup raises `AttributeError`, which escapes the
handler.

Both loc-bearing results pass the abbreviated hash through the
`Version` constructor, i.e. through `LocalVersion.from_str`; its
`ValueError` on a hash that fails the local grammar propagates (on
that error path the warning already emitted by the logger is not
carried by the model, which reports warnings only on success). -/
def getVersion (repo : GitRepo) (name : String)
    (candidate beta alpha : Option String) (post : Option Nat)
    (localP : LocalParam) (release_bump_index : Option Nat) :
    Except PyError (List String × Autoversion.Version) :=
  match repo.describeTag name with
  | .error code =>
    if code = 128 then .error .attributeError
    else .error (.calledProcessError code)
  | .ok (distance?, baseVersion, releaseTag) =>
    match distance? with
    | none => .ok ([], baseVersion)
    | some distance =>
      match Autoversion.Release.get_bumped baseVersion.release release_bump_index 1 with
      | .error e => .error e
      | .ok nextRelease =>
        let streams := streamList candidate beta alpha
        let branchName := repo.branchOf name
        match streams.find? (fun p => branchName = p.2) with
        | some (cat, _) =>
          .ok ([], { release := nextRelease,
                     prerelease := some (cat, (distance : Int)),
                     post := none, dev := none, loc := none })
        | none =>
          match streams.getLast? with
          | some (lastCat, lastBranch) =>
            let devCount := repo.commits name (some lastBranch)
            if devCount = 0 then
              match Autoversion.LocalVersion.from_str (repo.abbrevOf name) with
              | .ok segs =>
                .ok ([warnMsg name],
                     { release := baseVersion.release, prerelease := none,
                       post := none, dev := none, loc := some segs })
              | .error e => .error e
            else
              let sinceUpstream := repo.commits lastBranch (some releaseTag)
              finishComponents repo name nextRelease
                (some (lastCat, ((sinceUpstream : Int) + 1))) (some devCount)
                post localP
          | none =>
            finishComponents repo name nextRelease none (some distance)
              post localP

end Git

namespace Git

/-- Version 1.2.3 as parsed from the tag `v1.2.3`. -/
def v123 : Autoversion.Version :=
  { release := [1, 2, 3], prerelease := none, post := none, dev := none,
    loc := none }

/-- Version 1.0.0 as parsed from the tag `v1.0.0`. -/
def v100 : Autoversion.Version :=
  { release := [1, 0, 0], prerelease := none, post := none, dev := none,
    loc := none }

/-- Fixture repository: HEAD is the tip of branch `rel`, two commits
past the tag `v1.2.3`. -/
def repoRC : GitRepo :=
  { branchOf := fun _ => "rel"
    commits := fun _ _ => 7
    abbrevOf := fun _ => "abc1234"
    describeTag := fun _ => .ok (some 2, v123, "v1.2.3") }

/-- Fixture repository: HEAD is exactly at the tag `v1.2.3`. -/
def repoTag : GitRepo :=
  { repoRC with describeTag := fun _ => .ok (none, v123, "v1.2.3") }

/-- Fixture repository: HEAD is on a feature branch, two commits past
the tag `v1.0.0`, and nothing in its history lies outside the history
of the alpha stream branch `alp` (zero ancestor-exclusive count). -/
def repoWarn : GitRepo :=
  { repoRC with
    branchOf := fun _ => "feature"
    commits := fun _ since => if since = some "alp" then 0 else 9
    describeTag := fun _ => .ok (some 2, v100, "v1.0.0") }

/-- Fixture repository: HEAD is on a feature branch five commits past
the tag `v1.2.3`. -/
def repoDev : GitRepo :=
  { repoRC with
    branchOf := fun _ => "feature"
    commits := fun _ _ => 5
    describeTag := fun _ => .ok (some 5, v123, "v1.2.3") }

/-- Fixture repository like `repoWarn`, but the abbreviated commit
hash happens to be digit-only with a leading zero. -/
def repoWarn0 : GitRepo :=
  { repoWarn with abbrevOf := fun _ => "0123456" }

/-- Fixture repository like `repoDev`, but the abbreviated commit
hash happens to be digit-only with a leading zero. -/
def repoDev0 : GitRepo :=
  { repoDev with abbrevOf := fun _ => "0123456" }

/-- Fixture repository with no PEP440 tag reachable: `git describe`
fails with return code 128. -/
def repoNoTag : GitRepo :=
  { repoRC with describeTag := fun _ => .error 128 }

/-- Fixture repository where the describe subprocess fails for an
unrelated reason (return code 1). -/
def repoFail : GitRepo :=
  { repoRC with describeTag := fun _ => .error 1 }

end Git

/-! ### Decimal printing and scanning -/

theorem natCharsF_congr :
    ∀ f1 f2 n : Nat, n < f1 → n < f2 → natCharsF f1 n = natCharsF f2 n := by
  intro f1
  induction f1 with
  | zero => intro f2 n h _; omega
  | succ g ih =>
    intro f2 n h1 h2
    match f2 with
    | 0 => omega
    | h + 1 =>
      simp only [natCharsF]
      by_cases hn : n < 10
      · simp [hn]
      · have hd : n / 10 < n := Nat.div_lt_self (by omega) (by omega)
        simp only [hn, if_false]
        have := ih h (n / 10) (by omega) (by omega)
        rw [this]

theorem natChars_eq (n : Nat) :
    natChars n =
      if n < 10 then [digitChar n]
      else natChars (n / 10) ++ [digitChar (n % 10)] := by
  show natCharsF (n + 1) n = _
  by_cases hn : n < 10
  · simp [natCharsF, hn]
  · have hd : n / 10 < n := Nat.div_lt_self (by omega) (by omega)
    simp only [natCharsF, hn, if_false]
    have : natCharsF n (n / 10) = natCharsF (n / 10 + 1) (n / 10) :=
      natCharsF_congr n (n / 10 + 1) (n / 10) (by omega) (by omega)
    rw [this]
    rfl

theorem digitChar_facts (d : Nat) (h : d < 10) :
    isDigitChar (digitChar d) = true ∧ (digitChar d).toLower = digitChar d ∧
      (digitChar d).toNat = 48 + d := by
  interval_cases d <;> exact ⟨by decide, by decide, by decide⟩

theorem mem_natChars (n : Nat) :
    ∀ c ∈ natChars n, isDigitChar c = true ∧ c.toLower = c := by
  induction n using Nat.strong_induction_on with
  | _ n ih =>
    intro c hc
    rw [natChars_eq] at hc
    by_cases hn : n < 10
    · simp [hn] at hc
      subst hc
      exact ⟨(digitChar_facts n hn).1, (digitChar_facts n hn).2.1⟩
    · simp [hn] at hc
      rcases hc with hc | hc
      · exact ih (n / 10) (Nat.div_lt_self (by omega) (by omega)) c hc
      · subst hc
        have hm : n % 10 < 10 := Nat.mod_lt _ (by omega)
        exact ⟨(digitChar_facts _ hm).1, (digitChar_facts _ hm).2.1⟩

theorem natChars_ne_nil (n : Nat) : natChars n ≠ [] := by
  rw [natChars_eq]
  by_cases hn : n < 10 <;> simp [hn]

theorem natChars_cons (n : Nat) :
    ∃ d ds, natChars n = d :: ds ∧ isDigitChar d = true ∧
      (∀ c ∈ ds, isDigitChar c = true) := by
  rcases h : natChars n with _ | ⟨d, ds⟩
  · exact absurd h (natChars_ne_nil n)
  · refine ⟨d, ds, rfl, ?_, ?_⟩
    · exact (mem_natChars n d (by rw [h]; exact List.mem_cons_self _ _)).1
    · intro c hc
      exact (mem_natChars n c (by rw [h]; exact List.mem_cons_of_mem _ hc)).1

theorem takeDigits_append (ds rest : List Char)
    (hds : ∀ c ∈ ds, isDigitChar c = true) (hrest : digitHead rest = false) :
    takeDigits (ds ++ rest) = (ds, rest) := by
  induction ds with
  | nil =>
    match rest, hrest with
    | [], _ => rfl
    | c :: r, hrest =>
      simp only [digitHead] at hrest
      simp [takeDigits, hrest]
  | cons d ds ih =>
    have hd : isDigitChar d = true := hds d (List.mem_cons_self _ _)
    have hds' : ∀ c ∈ ds, isDigitChar c = true := fun c hc =>
      hds c (List.mem_cons_of_mem _ hc)
    simp [takeDigits, hd, ih hds']

theorem digitsVal_cons (c : Char) (cs : List Char) :
    digitsVal (c :: cs) =
      cs.foldl (fun a x => 10 * a + (x.toNat - 48)) (c.toNat - 48) := by
  simp [digitsVal, List.foldl_cons]

theorem digitsVal_natChars (n : Nat) : digitsVal (natChars n) = n := by
  induction n using Nat.strong_induction_on with
  | _ n ih =>
    rw [natChars_eq]
    by_cases hn : n < 10
    · simp [hn, digitsVal, (digitChar_facts n hn).2.2]
    · have hm : n % 10 < 10 := Nat.mod_lt _ (by omega)
      simp only [hn, if_false]
      have : digitsVal (natChars (n / 10) ++ [digitChar (n % 10)]) =
          10 * digitsVal (natChars (n / 10)) + ((digitChar (n % 10)).toNat - 48) := by
        simp [digitsVal, List.foldl_append]
      rw [this, ih (n / 10) (Nat.div_lt_self (by omega) (by omega)),
        (digitChar_facts _ hm).2.2]
      omega


/-! ### Release scanning -/

theorem isDigitChar_dot : isDigitChar '.' = false := by decide

theorem releaseLexAux_digit (acc : Nat) (c : Char) (r : List Char)
    (hc : isDigitChar c = true) :
    Roboversion.releaseLexAux acc (c :: r) =
      Roboversion.releaseLexAux (10 * acc + (c.toNat - 48)) r := by
  rw [Roboversion.releaseLexAux.eq_def]
  simp [hc]

theorem releaseLexAux_other (acc : Nat) (c : Char) (r : List Char)
    (hc : isDigitChar c = false) (hdot : c ≠ '.') :
    Roboversion.releaseLexAux acc (c :: r) = ([acc], c :: r) := by
  rw [Roboversion.releaseLexAux.eq_def]
  simp only [hc, if_false, Bool.false_eq_true]
  split
  · rename_i h; exact absurd h hdot
  · rfl

theorem releaseLexAux_dot_digit (acc : Nat) (c2 : Char) (r2 : List Char)
    (h : isDigitChar c2 = true) :
    Roboversion.releaseLexAux acc ('.' :: c2 :: r2) =
      ((acc :: (Roboversion.releaseLexAux (c2.toNat - 48) r2).1),
        (Roboversion.releaseLexAux (c2.toNat - 48) r2).2) := by
  rw [Roboversion.releaseLexAux.eq_def]
  simp [isDigitChar_dot, h]

theorem releaseLexAux_dot_other (acc : Nat) (c2 : Char) (r2 : List Char)
    (h : isDigitChar c2 = false) :
    Roboversion.releaseLexAux acc ('.' :: c2 :: r2) = ([acc], '.' :: c2 :: r2) := by
  rw [Roboversion.releaseLexAux.eq_def]
  simp [isDigitChar_dot, h]

theorem releaseLexAux_dot_nil (acc : Nat) :
    Roboversion.releaseLexAux acc ['.'] = ([acc], ['.']) := by
  rw [Roboversion.releaseLexAux.eq_def]
  simp [isDigitChar_dot]

theorem releaseLexAux_nil (acc : Nat) :
    Roboversion.releaseLexAux acc [] = ([acc], []) := rfl

theorem releaseLexAux_digits (ds : List Char) :
    ∀ (acc : Nat) (rest : List Char), (∀ c ∈ ds, isDigitChar c = true) →
      Roboversion.releaseLexAux acc (ds ++ rest) =
        Roboversion.releaseLexAux
          (ds.foldl (fun a x => 10 * a + (x.toNat - 48)) acc) rest := by
  induction ds with
  | nil => intro acc rest _; rfl
  | cons d ds ih =>
    intro acc rest hds
    rw [List.cons_append,
      releaseLexAux_digit acc d _ (hds d (List.mem_cons_self _ _)),
      List.foldl_cons]
    exact ih _ rest (fun c hc => hds c (List.mem_cons_of_mem _ hc))

theorem releaseLexAux_stop (acc : Nat) (rest : List Char)
    (h1 : digitHead rest = false) (h2 : dotDigitHead rest = false) :
    Roboversion.releaseLexAux acc rest = ([acc], rest) := by
  match rest, h1, h2 with
  | [], _, _ => rfl
  | c :: r, h1, h2 =>
    have hc : isDigitChar c = false := h1
    by_cases hd : c = '.'
    · subst hd
      match r, h2 with
      | [], _ => exact releaseLexAux_dot_nil acc
      | c2 :: r2, h2 =>
        exact releaseLexAux_dot_other acc c2 r2 h2
    · exact releaseLexAux_other acc c r hc hd

theorem foldl_natChars (n : Nat) (d : Char) (ds : List Char)
    (hnat : natChars n = d :: ds) :
    ds.foldl (fun a x => 10 * a + (x.toNat - 48)) (d.toNat - 48) = n := by
  have := digitsVal_natChars n
  rw [hnat, digitsVal_cons] at this
  exact this

theorem releaseLexAux_dotComps (cs : List Nat) :
    ∀ (acc : Nat) (rest : List Char),
      digitHead rest = false → dotDigitHead rest = false →
      Roboversion.releaseLexAux acc (Roboversion.dotComps cs ++ rest) =
        (acc :: cs, rest) := by
  induction cs with
  | nil =>
    intro acc rest h1 h2
    simpa [Roboversion.dotComps] using releaseLexAux_stop acc rest h1 h2
  | cons m ms ih =>
    intro acc rest h1 h2
    obtain ⟨d, ds, hnat, hd, hds⟩ := natChars_cons m
    have hshape :
        Roboversion.dotComps (m :: ms) ++ rest =
          '.' :: d :: (ds ++ (Roboversion.dotComps ms ++ rest)) := by
      simp [Roboversion.dotComps, hnat, List.append_assoc]
    rw [hshape, releaseLexAux_dot_digit acc d _ hd,
      releaseLexAux_digits ds _ _ hds, foldl_natChars m d ds hnat,
      ih _ rest h1 h2]

theorem parseRelease_rt (n : Nat) (ns : List Nat) (rest : List Char)
    (h1 : digitHead rest = false) (h2 : dotDigitHead rest = false) :
    Roboversion.parseRelease (Roboversion.releaseChars (n :: ns) ++ rest) =
      some (n :: ns, rest) := by
  obtain ⟨d, ds, hnat, hd, hds⟩ := natChars_cons n
  have hshape :
      Roboversion.releaseChars (n :: ns) ++ rest =
        d :: (ds ++ (Roboversion.dotComps ns ++ rest)) := by
    simp [Roboversion.releaseChars, hnat, List.append_assoc]
  rw [hshape]
  show (if isDigitChar d = true then _ else _) = _
  rw [if_pos hd, releaseLexAux_digits ds _ _ hds, foldl_natChars n d ds hnat,
    releaseLexAux_dotComps ns n rest h1 h2]

/-! ### Epoch scanning -/

theorem takeDigits_natChars (n : Nat) (rest : List Char)
    (hd : digitHead rest = false) :
    takeDigits (natChars n ++ rest) = (natChars n, rest) :=
  takeDigits_append (natChars n) rest (fun c hc => (mem_natChars n c hc).1) hd

theorem parseEpoch_eq (s : List Char) :
    Roboversion.parseEpoch s =
      (match (takeDigits s).1, (takeDigits s).2 with
       | [], _ => (none, s)
       | _ :: _, '!' :: r2 => (some (digitsVal (takeDigits s).1), r2)
       | _ :: _, _ => (none, s)) := rfl

theorem parseEpoch_absent (n : Nat) (rest : List Char)
    (hd : digitHead rest = false) (hb : rest.head? ≠ some '!') :
    Roboversion.parseEpoch (natChars n ++ rest) =
      (none, natChars n ++ rest) := by
  obtain ⟨d, ds, hnat, _, _⟩ := natChars_cons n
  rw [parseEpoch_eq, takeDigits_natChars n rest hd, hnat]
  split
  · rfl
  · rename_i heq
    have h2 : rest = '!' :: _ := heq
    rw [h2] at hb
    exact absurd rfl hb
  · rfl

theorem parseEpoch_present (e : Nat) (rest : List Char) :
    Roboversion.parseEpoch (natChars e ++ '!' :: rest) = (some e, rest) := by
  obtain ⟨d, ds, hnat, _, _⟩ := natChars_cons e
  rw [parseEpoch_eq,
    takeDigits_natChars e ('!' :: rest) rfl, hnat]
  show (some (digitsVal (d :: ds)), rest) = (some e, rest)
  rw [← hnat, digitsVal_natChars]

/-! ### Prerelease scanning -/

theorem stripLit_digit_head (k0 : Char) (kws : List Char)
    (hk0 : isDigitChar k0 = false) (d : Char) (s : List Char)
    (hd : isDigitChar d = true) (hlow : d.toLower = d) :
    stripLit (k0 :: kws) (d :: s) = d :: s := by
  have hcond : ((d :: s).take (k0 :: kws).length).map Char.toLower ≠ k0 :: kws := by
    intro h
    simp only [List.length_cons, List.take_succ_cons, List.map_cons] at h
    have : d.toLower = k0 := (List.cons.injEq _ _ _ _).mp h |>.1
    rw [hlow] at this
    rw [this] at hd
    rw [hd] at hk0
    exact absurd hk0 (by simp)
  simp only [stripLit]
  rw [if_neg hcond]

theorem parsePreValue_digits (m : Nat) (rest : List Char)
    (h : digitHead rest = false) :
    Roboversion.parsePreValue (natChars m ++ rest) = (m, rest) := by
  obtain ⟨d, ds, hnat, hd, _⟩ := natChars_cons m
  have hshape : natChars m ++ rest = d :: (ds ++ rest) := by simp [hnat]
  rw [hshape]
  show (if isDigitChar d = true then
      ((digitsVal (takeDigits (d :: (ds ++ rest))).1),
        (takeDigits (d :: (ds ++ rest))).2)
    else _) = (m, rest)
  rw [if_pos hd, ← hshape, takeDigits_natChars m rest h, digitsVal_natChars]

theorem parsePre_alpha (m : Nat) (rest : List Char) (h : digitHead rest = false) :
    Roboversion.parsePre (Roboversion.catChars .alpha ++ natChars m ++ rest) =
      (some (.alpha, m), rest) := by
  obtain ⟨d, ds, hnat, hd, _⟩ := natChars_cons m
  have hlow := (mem_natChars m d (by rw [hnat]; exact List.mem_cons_self _ _)).2
  have hshape : Roboversion.catChars .alpha ++ natChars m ++ rest =
      'a' :: (natChars m ++ rest) := by
    simp [Roboversion.catChars]
  rw [hshape]
  have hstrip : stripLit ['l', 'p', 'h', 'a'] (natChars m ++ rest) =
      natChars m ++ rest := by
    rw [hnat]
    exact stripLit_digit_head 'l' _ (by decide) d _ hd hlow
  have e1 : isSepChar 'a' = false := rfl
  have e2 : 'a'.toLower = 'a' := rfl
  simp only [Roboversion.parsePre, Roboversion.parseCat, e1, e2,
    Bool.false_eq_true, if_false, if_true, hstrip,
    parsePreValue_digits m rest h]

theorem parsePre_beta (m : Nat) (rest : List Char) (h : digitHead rest = false) :
    Roboversion.parsePre (Roboversion.catChars .beta ++ natChars m ++ rest) =
      (some (.beta, m), rest) := by
  obtain ⟨d, ds, hnat, hd, _⟩ := natChars_cons m
  have hlow := (mem_natChars m d (by rw [hnat]; exact List.mem_cons_self _ _)).2
  have hshape : Roboversion.catChars .beta ++ natChars m ++ rest =
      'b' :: (natChars m ++ rest) := by
    simp [Roboversion.catChars]
  rw [hshape]
  have hstrip : stripLit ['e', 't', 'a'] (natChars m ++ rest) =
      natChars m ++ rest := by
    rw [hnat]
    exact stripLit_digit_head 'e' _ (by decide) d _ hd hlow
  have e1 : isSepChar 'b' = false := rfl
  have e2 : ('b'.toLower = 'a') = False := by simp
  have e3 : 'b'.toLower = 'b' := rfl
  simp only [Roboversion.parsePre, Roboversion.parseCat, e1, e2, e3,
    Bool.false_eq_true, if_false, if_true, hstrip,
    parsePreValue_digits m rest h]
  simp only [show ('b' = 'a') = False from by decide, if_false,
    parsePreValue_digits m rest h]

theorem parsePre_rc (m : Nat) (rest : List Char) (h : digitHead rest = false) :
    Roboversion.parsePre
        (Roboversion.catChars .releaseCandidate ++ natChars m ++ rest) =
      (some (.releaseCandidate, m), rest) := by
  have hshape : Roboversion.catChars .releaseCandidate ++ natChars m ++ rest =
      'r' :: 'c' :: (natChars m ++ rest) := by
    simp [Roboversion.catChars]
  rw [hshape]
  have e1 : isSepChar 'r' = false := rfl
  have e2 : ('r'.toLower = 'a') = False := by simp
  have e3 : ('r'.toLower = 'b') = False := by simp
  have e4 : 'r'.toLower = 'r' := rfl
  have e5 : 'c'.toLower = 'c' := rfl
  simp only [Roboversion.parsePre, Roboversion.parseCat, e1, e2, e3, e4, e5,
    Bool.false_eq_true, if_false, if_true, eq_self_iff_true,
    parsePreValue_digits m rest h]
  simp only [show ('r' = 'a') = False from by decide,
    show ('r' = 'b') = False from by decide, if_false,
    parsePreValue_digits m rest h]

theorem parsePre_nil : Roboversion.parsePre [] = (none, []) := rfl

theorem parsePre_plus (xs : List Char) :
    Roboversion.parsePre ('+' :: xs) = (none, '+' :: xs) := by
  have e1 : isSepChar '+' = false := rfl
  have e2 : ('+'.toLower = 'a') = False := by simp
  have e3 : ('+'.toLower = 'b') = False := by simp
  have e4 : ('+'.toLower = 'r') = False := by simp
  have e5 : ('+'.toLower = 'c') = False := by simp
  have e6 : ('+'.toLower = 'p') = False := by simp
  simp only [Roboversion.parsePre, Roboversion.parseCat, e1, e2, e3, e4, e5, e6,
    Bool.false_eq_true, if_false]

theorem parsePre_dotPost (xs : List Char) :
    Roboversion.parsePre ('.' :: 'p' :: 'o' :: 's' :: 't' :: xs) =
      (none, '.' :: 'p' :: 'o' :: 's' :: 't' :: xs) := by
  have e1 : isSepChar '.' = true := rfl
  have e2 : ('p'.toLower = 'a') = False := by simp
  have e3 : ('p'.toLower = 'b') = False := by simp
  have e4 : ('p'.toLower = 'r') = False := by simp
  have e5 : ('p'.toLower = 'c') = False := by simp
  have e6 : 'p'.toLower = 'p' := rfl
  have e7 : ('o'.toLower = 'r' ∧ 's'.toLower = 'e') = False := by simp
  simp only [Roboversion.parsePre, Roboversion.parseCat, e1, e2, e3, e4, e5, e6,
    e7, Bool.false_eq_true, if_false, if_true]
  simp only [show ('p' = 'a') = False from by decide,
    show ('p' = 'b') = False from by decide,
    show ('p' = 'r') = False from by decide,
    show ('p' = 'c') = False from by decide,
    show (decide ('o'.toLower = 'r') && decide ('s'.toLower = 'e')) = false
      from by decide,
    Bool.false_eq_true, if_false]

theorem parsePre_dotDev (xs : List Char) :
    Roboversion.parsePre ('.' :: 'd' :: 'e' :: 'v' :: xs) =
      (none, '.' :: 'd' :: 'e' :: 'v' :: xs) := by
  have e1 : isSepChar '.' = true := rfl
  have e2 : ('d'.toLower = 'a') = False := by simp
  have e3 : ('d'.toLower = 'b') = False := by simp
  have e4 : ('d'.toLower = 'r') = False := by simp
  have e5 : ('d'.toLower = 'c') = False := by simp
  have e6 : ('d'.toLower = 'p') = False := by simp
  simp only [Roboversion.parsePre, Roboversion.parseCat, e1, e2, e3, e4, e5, e6,
    Bool.false_eq_true, if_false, if_true]

/-! ### Post, dev and local scanning -/

theorem parseOptDigits_digits (p : Nat) (rest : List Char)
    (h : digitHead rest = false) :
    Roboversion.parseOptDigits (natChars p ++ rest) = (some p, rest) := by
  obtain ⟨d, ds, hnat, hd, _⟩ := natChars_cons p
  have hshape : natChars p ++ rest = d :: (ds ++ rest) := by simp [hnat]
  rw [hshape]
  show (if isDigitChar d = true then
      (some (digitsVal (takeDigits (d :: (ds ++ rest))).1),
        (takeDigits (d :: (ds ++ rest))).2)
    else _) = (some p, rest)
  rw [if_pos hd, ← hshape, takeDigits_natChars p rest h, digitsVal_natChars]

theorem parsePost_found (p : Nat) (rest : List Char)
    (h : digitHead rest = false) :
    Roboversion.parsePost
        ('.' :: 'p' :: 'o' :: 's' :: 't' :: (natChars p ++ rest)) =
      (some p, rest) := by
  have hkw : Roboversion.parsePostKw
      ('p' :: 'o' :: 's' :: 't' :: (natChars p ++ rest)) =
        some (natChars p ++ rest) := by
    simp only [Roboversion.parsePostKw]
    rw [if_pos (by simp)]
    simp
  have e1 : isSepChar '.' = true := rfl
  simp only [Roboversion.parsePost, e1, if_true, hkw,
    parseOptDigits_digits p rest h]

theorem parsePostKw_dev (xs : List Char) :
    Roboversion.parsePostKw ('d' :: 'e' :: 'v' :: xs) = none := by
  simp only [Roboversion.parsePostKw]
  rw [if_neg (by simp)]
  rw [if_neg (by decide)]

theorem parsePostKw_plus (xs : List Char) :
    Roboversion.parsePostKw ('+' :: xs) = none := by
  simp only [Roboversion.parsePostKw]
  rw [if_neg (by simp)]
  rw [if_neg (by decide)]

theorem parsePost_dotDev (xs : List Char) :
    Roboversion.parsePost ('.' :: 'd' :: 'e' :: 'v' :: xs) =
      (none, '.' :: 'd' :: 'e' :: 'v' :: xs) := by
  have e1 : isSepChar '.' = true := rfl
  simp only [Roboversion.parsePost, e1, if_true, parsePostKw_dev]
  split
  · rename_i heq; simp at heq
  · rfl

theorem parsePost_plus (xs : List Char) :
    Roboversion.parsePost ('+' :: xs) = (none, '+' :: xs) := by
  have e1 : isSepChar '+' = false := rfl
  simp only [Roboversion.parsePost, e1, Bool.false_eq_true, if_false,
    parsePostKw_plus]
  split
  · rename_i heq; simp at heq
  · rfl

theorem parsePost_nil : Roboversion.parsePost [] = (none, []) := rfl

theorem parseDevKw_digits (d : Nat) (rest : List Char)
    (h : digitHead rest = false) :
    Roboversion.parseDevKw ('d' :: 'e' :: 'v' :: (natChars d ++ rest)) =
      some (d, rest) := by
  obtain ⟨c, cs, hnat, hc, _⟩ := natChars_cons d
  have hshape : natChars d ++ rest = c :: (cs ++ rest) := by simp [hnat]
  simp only [Roboversion.parseDevKw]
  rw [if_pos (by simp)]
  rw [hshape]
  show (if isDigitChar c = true then
      some (digitsVal (takeDigits (c :: (cs ++ rest))).1,
        (takeDigits (c :: (cs ++ rest))).2)
    else none) = some (d, rest)
  rw [if_pos hc, ← hshape, takeDigits_natChars d rest h, digitsVal_natChars]

theorem parseDev_found (d : Nat) (rest : List Char)
    (h : digitHead rest = false) :
    Roboversion.parseDev ('.' :: 'd' :: 'e' :: 'v' :: (natChars d ++ rest)) =
      (some d, rest) := by
  have e1 : isSepChar '.' = true := rfl
  simp only [Roboversion.parseDev, e1, if_true, parseDevKw_digits d rest h]

theorem parseDev_plus (xs : List Char) :
    Roboversion.parseDev ('+' :: xs) = (none, '+' :: xs) := by
  have e1 : isSepChar '+' = false := rfl
  have hkw : Roboversion.parseDevKw ('+' :: xs) = none := by
    simp only [Roboversion.parseDevKw]
    rw [if_neg (by simp)]
  simp only [Roboversion.parseDev, e1, Bool.false_eq_true, if_false, hkw]

theorem parseDev_nil : Roboversion.parseDev [] = (none, []) := rfl

theorem localOK_ne_nil (l : List Char) (h : Roboversion.localOK l = true) :
    l ≠ [] := by
  intro he
  rw [he] at h
  exact absurd h (by decide)

theorem parseLocal_found (l : List Char) (h : Roboversion.localOK l = true) :
    Roboversion.parseLocal ('+' :: l) = (some l, []) := by
  match l, h with
  | c :: r, h =>
    simp only [Roboversion.localOK, Bool.and_eq_true, decide_eq_true_eq] at h
    obtain ⟨h1, h2⟩ := h
    simp only [Roboversion.parseLocal, h1, if_true, h2]

theorem parseLocal_nil : Roboversion.parseLocal [] = (none, []) := rfl

/-! ### Composed suffixes of the canonical serialization -/

theorem digit_toLower_ne (d c : Char) (hd : isDigitChar d = true)
    (hlow : d.toLower = d) (hc : isDigitChar c = false) : ¬(d.toLower = c) := by
  intro h
  rw [hlow] at h
  subst h
  rw [hd] at hc
  exact absurd hc (by simp)

theorem postChars_nonzero (p : Nat) (hp : p ≠ 0) :
    Roboversion.postChars (some p) =
      '.' :: 'p' :: 'o' :: 's' :: 't' :: natChars p := by
  simp [Roboversion.postChars, hp]

theorem devChars_nonzero (d : Nat) (hd : d ≠ 0) :
    Roboversion.devChars (some d) =
      '.' :: 'd' :: 'e' :: 'v' :: natChars d := by
  simp [Roboversion.devChars, hd]

theorem locChars_some (l : List Char) (h : Roboversion.localOK l = true) :
    Roboversion.locChars (some l) = '+' :: l := by
  simp [Roboversion.locChars, localOK_ne_nil l h]

theorem tailLoc_shape (loc : Option (List Char))
    (hOK : ∀ l, loc = some l → Roboversion.localOK l = true) :
    Roboversion.locChars loc = [] ∨
      (∃ xs, Roboversion.locChars loc = '+' :: xs) := by
  rcases loc with _ | l
  · exact Or.inl rfl
  · exact Or.inr ⟨l, locChars_some l (hOK l rfl)⟩

theorem tailC_shape (dev : Option Nat) (loc : Option (List Char))
    (hdz : dev ≠ some 0)
    (hOK : ∀ l, loc = some l → Roboversion.localOK l = true) :
    Roboversion.devChars dev ++ Roboversion.locChars loc = [] ∨
      (∃ xs, Roboversion.devChars dev ++ Roboversion.locChars loc =
        '.' :: 'd' :: 'e' :: 'v' :: xs) ∨
      (∃ xs, Roboversion.devChars dev ++ Roboversion.locChars loc =
        '+' :: xs) := by
  rcases dev with _ | d
  · rcases tailLoc_shape loc hOK with h | ⟨xs, h⟩
    · exact Or.inl (by simp [Roboversion.devChars, h])
    · exact Or.inr (Or.inr ⟨xs, by simp [Roboversion.devChars, h]⟩)
  · have hd : d ≠ 0 := fun h => hdz (by rw [h])
    exact Or.inr (Or.inl ⟨natChars d ++ Roboversion.locChars loc,
      by simp [devChars_nonzero d hd]⟩)

theorem tailB_shape (post dev : Option Nat) (loc : Option (List Char))
    (hpz : post ≠ some 0) (hdz : dev ≠ some 0)
    (hOK : ∀ l, loc = some l → Roboversion.localOK l = true) :
    Roboversion.postChars post ++
        (Roboversion.devChars dev ++ Roboversion.locChars loc) = [] ∨
      (∃ xs, Roboversion.postChars post ++
          (Roboversion.devChars dev ++ Roboversion.locChars loc) =
        '.' :: 'p' :: 'o' :: 's' :: 't' :: xs) ∨
      (∃ xs, Roboversion.postChars post ++
          (Roboversion.devChars dev ++ Roboversion.locChars loc) =
        '.' :: 'd' :: 'e' :: 'v' :: xs) ∨
      (∃ xs, Roboversion.postChars post ++
          (Roboversion.devChars dev ++ Roboversion.locChars loc) =
        '+' :: xs) := by
  rcases post with _ | p
  · rcases tailC_shape dev loc hdz hOK with h | ⟨xs, h⟩ | ⟨xs, h⟩
    · exact Or.inl (by simp [Roboversion.postChars, h])
    · exact Or.inr (Or.inr (Or.inl ⟨xs, by simp [Roboversion.postChars, h]⟩))
    · exact Or.inr (Or.inr (Or.inr ⟨xs, by simp [Roboversion.postChars, h]⟩))
  · have hp : p ≠ 0 := fun h => hpz (by rw [h])
    exact Or.inr (Or.inl ⟨natChars p ++
      (Roboversion.devChars dev ++ Roboversion.locChars loc),
      by simp [postChars_nonzero p hp]⟩)

theorem tailA_shape (pre : Option (PrereleaseCategory × Nat))
    (post dev : Option Nat) (loc : Option (List Char))
    (hpz : post ≠ some 0) (hdz : dev ≠ some 0)
    (hOK : ∀ l, loc = some l → Roboversion.localOK l = true) :
    Roboversion.preChars pre ++ (Roboversion.postChars post ++
        (Roboversion.devChars dev ++ Roboversion.locChars loc)) = [] ∨
      (∃ xs, Roboversion.preChars pre ++ (Roboversion.postChars post ++
          (Roboversion.devChars dev ++ Roboversion.locChars loc)) = 'a' :: xs) ∨
      (∃ xs, Roboversion.preChars pre ++ (Roboversion.postChars post ++
          (Roboversion.devChars dev ++ Roboversion.locChars loc)) = 'b' :: xs) ∨
      (∃ xs, Roboversion.preChars pre ++ (Roboversion.postChars post ++
          (Roboversion.devChars dev ++ Roboversion.locChars loc)) = 'r' :: xs) ∨
      (∃ xs, Roboversion.preChars pre ++ (Roboversion.postChars post ++
          (Roboversion.devChars dev ++ Roboversion.locChars loc)) =
        '.' :: 'p' :: 'o' :: 's' :: 't' :: xs) ∨
      (∃ xs, Roboversion.preChars pre ++ (Roboversion.postChars post ++
          (Roboversion.devChars dev ++ Roboversion.locChars loc)) =
        '.' :: 'd' :: 'e' :: 'v' :: xs) ∨
      (∃ xs, Roboversion.preChars pre ++ (Roboversion.postChars post ++
          (Roboversion.devChars dev ++ Roboversion.locChars loc)) =
        '+' :: xs) := by
  rcases pre with _ | ⟨c, m⟩
  · rcases tailB_shape post dev loc hpz hdz hOK with h | ⟨xs, h⟩ | ⟨xs, h⟩ | ⟨xs, h⟩
    · exact Or.inl (by simp [Roboversion.preChars, h])
    · exact Or.inr (Or.inr (Or.inr (Or.inr (Or.inl
        ⟨xs, by simp [Roboversion.preChars, h]⟩))))
    · exact Or.inr (Or.inr (Or.inr (Or.inr (Or.inr (Or.inl
        ⟨xs, by simp [Roboversion.preChars, h]⟩)))))
    · exact Or.inr (Or.inr (Or.inr (Or.inr (Or.inr (Or.inr
        ⟨xs, by simp [Roboversion.preChars, h]⟩)))))
  · rcases c with _ | _ | _
    · exact Or.inr (Or.inl ⟨natChars m ++ (Roboversion.postChars post ++
        (Roboversion.devChars dev ++ Roboversion.locChars loc)), by
        simp [Roboversion.preChars, Roboversion.catChars]⟩)
    · exact Or.inr (Or.inr (Or.inl ⟨natChars m ++ (Roboversion.postChars post ++
        (Roboversion.devChars dev ++ Roboversion.locChars loc)), by
        simp [Roboversion.preChars, Roboversion.catChars]⟩))
    · exact Or.inr (Or.inr (Or.inr (Or.inl ⟨'c' :: (natChars m ++
        (Roboversion.postChars post ++
          (Roboversion.devChars dev ++ Roboversion.locChars loc))), by
        simp [Roboversion.preChars, Roboversion.catChars]⟩)))

theorem digitHead_tailA (pre : Option (PrereleaseCategory × Nat))
    (post dev : Option Nat) (loc : Option (List Char))
    (hpz : post ≠ some 0) (hdz : dev ≠ some 0)
    (hOK : ∀ l, loc = some l → Roboversion.localOK l = true) :
    digitHead (Roboversion.preChars pre ++ (Roboversion.postChars post ++
      (Roboversion.devChars dev ++ Roboversion.locChars loc))) = false := by
  rcases tailA_shape pre post dev loc hpz hdz hOK with
    h | ⟨xs, h⟩ | ⟨xs, h⟩ | ⟨xs, h⟩ | ⟨xs, h⟩ | ⟨xs, h⟩ | ⟨xs, h⟩ <;>
    rw [h] <;> rfl

theorem dotDigitHead_tailA (pre : Option (PrereleaseCategory × Nat))
    (post dev : Option Nat) (loc : Option (List Char))
    (hpz : post ≠ some 0) (hdz : dev ≠ some 0)
    (hOK : ∀ l, loc = some l → Roboversion.localOK l = true) :
    dotDigitHead (Roboversion.preChars pre ++ (Roboversion.postChars post ++
      (Roboversion.devChars dev ++ Roboversion.locChars loc))) = false := by
  rcases tailA_shape pre post dev loc hpz hdz hOK with
    h | ⟨xs, h⟩ | ⟨xs, h⟩ | ⟨xs, h⟩ | ⟨xs, h⟩ | ⟨xs, h⟩ | ⟨xs, h⟩ <;>
    rw [h] <;> rfl

theorem noBang_tailA (pre : Option (PrereleaseCategory × Nat))
    (post dev : Option Nat) (loc : Option (List Char))
    (hpz : post ≠ some 0) (hdz : dev ≠ some 0)
    (hOK : ∀ l, loc = some l → Roboversion.localOK l = true) :
    (Roboversion.preChars pre ++ (Roboversion.postChars post ++
      (Roboversion.devChars dev ++ Roboversion.locChars loc))).head? ≠
        some '!' := by
  rcases tailA_shape pre post dev loc hpz hdz hOK with
    h | ⟨xs, h⟩ | ⟨xs, h⟩ | ⟨xs, h⟩ | ⟨xs, h⟩ | ⟨xs, h⟩ | ⟨xs, h⟩ <;>
    rw [h] <;> simp

theorem digitHead_tailB (post dev : Option Nat) (loc : Option (List Char))
    (hpz : post ≠ some 0) (hdz : dev ≠ some 0)
    (hOK : ∀ l, loc = some l → Roboversion.localOK l = true) :
    digitHead (Roboversion.postChars post ++
      (Roboversion.devChars dev ++ Roboversion.locChars loc)) = false := by
  rcases tailB_shape post dev loc hpz hdz hOK with
    h | ⟨xs, h⟩ | ⟨xs, h⟩ | ⟨xs, h⟩ <;> rw [h] <;> rfl

theorem digitHead_tailC (dev : Option Nat) (loc : Option (List Char))
    (hdz : dev ≠ some 0)
    (hOK : ∀ l, loc = some l → Roboversion.localOK l = true) :
    digitHead (Roboversion.devChars dev ++ Roboversion.locChars loc) = false := by
  rcases tailC_shape dev loc hdz hOK with h | ⟨xs, h⟩ | ⟨xs, h⟩ <;>
    rw [h] <;> rfl

theorem digitHead_tailLoc (loc : Option (List Char))
    (hOK : ∀ l, loc = some l → Roboversion.localOK l = true) :
    digitHead (Roboversion.locChars loc) = false := by
  rcases tailLoc_shape loc hOK with h | ⟨xs, h⟩ <;> rw [h] <;> rfl

/-! ### The four trailing fields parse back to themselves -/

theorem suffix_loc (loc : Option (List Char))
    (hOK : ∀ l, loc = some l → Roboversion.localOK l = true) :
    Roboversion.parseLocal (Roboversion.locChars loc) = (loc, []) := by
  rcases loc with _ | l
  · rfl
  · rw [locChars_some l (hOK l rfl)]
    exact parseLocal_found l (hOK l rfl)

theorem suffix_dev (dev : Option Nat) (loc : Option (List Char))
    (hdz : dev ≠ some 0)
    (hOK : ∀ l, loc = some l → Roboversion.localOK l = true) :
    Roboversion.parseDev (Roboversion.devChars dev ++ Roboversion.locChars loc) =
      (dev, Roboversion.locChars loc) := by
  rcases dev with _ | d
  · show Roboversion.parseDev (Roboversion.locChars loc) = (none, _)
    rcases tailLoc_shape loc hOK with h | ⟨xs, h⟩ <;> rw [h]
    · exact parseDev_nil
    · exact parseDev_plus xs
  · have hd : d ≠ 0 := fun h => hdz (by rw [h])
    rw [devChars_nonzero d hd]
    show Roboversion.parseDev
      ('.' :: 'd' :: 'e' :: 'v' :: (natChars d ++ Roboversion.locChars loc)) = _
    exact parseDev_found d _ (digitHead_tailLoc loc hOK)

theorem suffix_post (post dev : Option Nat) (loc : Option (List Char))
    (hpz : post ≠ some 0) (hdz : dev ≠ some 0)
    (hOK : ∀ l, loc = some l → Roboversion.localOK l = true) :
    Roboversion.parsePost (Roboversion.postChars post ++
        (Roboversion.devChars dev ++ Roboversion.locChars loc)) =
      (post, Roboversion.devChars dev ++ Roboversion.locChars loc) := by
  rcases post with _ | p
  · show Roboversion.parsePost
      (Roboversion.devChars dev ++ Roboversion.locChars loc) = _
    rcases tailC_shape dev loc hdz hOK with h | ⟨xs, h⟩ | ⟨xs, h⟩ <;> rw [h]
    · exact parsePost_nil
    · exact parsePost_dotDev xs
    · exact parsePost_plus xs
  · have hp : p ≠ 0 := fun h => hpz (by rw [h])
    rw [postChars_nonzero p hp]
    show Roboversion.parsePost ('.' :: 'p' :: 'o' :: 's' :: 't' ::
      (natChars p ++ (Roboversion.devChars dev ++ Roboversion.locChars loc))) = _
    exact parsePost_found p _ (digitHead_tailC dev loc hdz hOK)

theorem suffix_pre (pre : Option (PrereleaseCategory × Nat))
    (post dev : Option Nat) (loc : Option (List Char))
    (hpz : post ≠ some 0) (hdz : dev ≠ some 0)
    (hOK : ∀ l, loc = some l → Roboversion.localOK l = true) :
    Roboversion.parsePre (Roboversion.preChars pre ++
        (Roboversion.postChars post ++
          (Roboversion.devChars dev ++ Roboversion.locChars loc))) =
      (pre, Roboversion.postChars post ++
        (Roboversion.devChars dev ++ Roboversion.locChars loc)) := by
  rcases pre with _ | ⟨c, m⟩
  · show Roboversion.parsePre (Roboversion.postChars post ++
      (Roboversion.devChars dev ++ Roboversion.locChars loc)) = _
    rcases tailB_shape post dev loc hpz hdz hOK with
      h | ⟨xs, h⟩ | ⟨xs, h⟩ | ⟨xs, h⟩ <;> rw [h]
    · exact parsePre_nil
    · exact parsePre_dotPost xs
    · exact parsePre_dotDev xs
    · exact parsePre_plus xs
  · have hdB := digitHead_tailB post dev loc hpz hdz hOK
    have hassoc : Roboversion.preChars (some (c, m)) ++
        (Roboversion.postChars post ++
          (Roboversion.devChars dev ++ Roboversion.locChars loc)) =
        Roboversion.catChars c ++ natChars m ++
          (Roboversion.postChars post ++
            (Roboversion.devChars dev ++ Roboversion.locChars loc)) := by
      simp [Roboversion.preChars, List.append_assoc]
    rw [hassoc]
    rcases c with _ | _ | _
    · exact parsePre_alpha m _ hdB
    · exact parsePre_beta m _ hdB
    · exact parsePre_rc m _ hdB

/-! ### The round trip through the canonical serialization -/

theorem stripV_digit (d : Char) (r : List Char) (hd : isDigitChar d = true)
    (hlow : d.toLower = d) : Roboversion.stripV (d :: r) = d :: r := by
  simp only [Roboversion.stripV]
  rw [if_neg (digit_toLower_ne d 'v' hd hlow (by decide))]

theorem from_str_versionChars (v : Roboversion.Version)
    (hv : Roboversion.valid v = true)
    (hp : v.post ≠ some 0) (hd : v.dev ≠ some 0) :
    Roboversion.from_str (Roboversion.versionChars v) = some v := by
  obtain ⟨e, rel, pre, post, dev, loc⟩ := v
  simp only [Roboversion.valid, Bool.and_eq_true] at hv
  obtain ⟨h1, h2⟩ := hv
  simp only at hp hd
  rcases rel with _ | ⟨n, ns⟩
  · simp at h1
  have hOK : ∀ l, loc = some l → Roboversion.localOK l = true := by
    intro l hl
    subst hl
    exact h2
  have hA1 := digitHead_tailA pre post dev loc hp hd hOK
  have hA2 := dotDigitHead_tailA pre post dev loc hp hd hOK
  have hA3 := noBang_tailA pre post dev loc hp hd hOK
  have hSpre := suffix_pre pre post dev loc hp hd hOK
  have hSpost := suffix_post post dev loc hp hd hOK
  have hSdev := suffix_dev dev loc hd hOK
  have hSloc := suffix_loc loc hOK
  have hrest1 : digitHead (Roboversion.dotComps ns ++
      (Roboversion.preChars pre ++ (Roboversion.postChars post ++
        (Roboversion.devChars dev ++ Roboversion.locChars loc)))) = false := by
    rcases ns with _ | ⟨m, ms⟩
    · simpa [Roboversion.dotComps] using hA1
    · rfl
  have hrest2 : (Roboversion.dotComps ns ++
      (Roboversion.preChars pre ++ (Roboversion.postChars post ++
        (Roboversion.devChars dev ++ Roboversion.locChars loc)))).head? ≠
        some '!' := by
    rcases ns with _ | ⟨m, ms⟩
    · simpa [Roboversion.dotComps] using hA3
    · simp [Roboversion.dotComps]
  by_cases he : e = 0
  · subst he
    have hw : Roboversion.versionChars
        { epoch := 0, release := n :: ns, prerelease := pre, post := post,
          dev := dev, loc := loc } =
        natChars n ++ (Roboversion.dotComps ns ++
          (Roboversion.preChars pre ++ (Roboversion.postChars post ++
            (Roboversion.devChars dev ++ Roboversion.locChars loc)))) := by
      simp [Roboversion.versionChars, Roboversion.epochChars,
        Roboversion.releaseChars, List.append_assoc]
    obtain ⟨d0, ds0, hnat, hd0, _⟩ := natChars_cons n
    have hlow0 := (mem_natChars n d0 (by rw [hnat]; exact List.mem_cons_self _ _)).2
    have hstrip : Roboversion.stripV (natChars n ++ (Roboversion.dotComps ns ++
        (Roboversion.preChars pre ++ (Roboversion.postChars post ++
          (Roboversion.devChars dev ++ Roboversion.locChars loc))))) =
        natChars n ++ (Roboversion.dotComps ns ++
          (Roboversion.preChars pre ++ (Roboversion.postChars post ++
            (Roboversion.devChars dev ++ Roboversion.locChars loc)))) := by
      rw [hnat, List.cons_append]
      exact stripV_digit d0 _ hd0 hlow0
    have hep := parseEpoch_absent n
      (Roboversion.dotComps ns ++
        (Roboversion.preChars pre ++ (Roboversion.postChars post ++
          (Roboversion.devChars dev ++ Roboversion.locChars loc))))
      hrest1 hrest2
    have hrelw : Roboversion.parseRelease (natChars n ++
        (Roboversion.dotComps ns ++
          (Roboversion.preChars pre ++ (Roboversion.postChars post ++
            (Roboversion.devChars dev ++ Roboversion.locChars loc))))) =
        some (n :: ns,
          Roboversion.preChars pre ++ (Roboversion.postChars post ++
            (Roboversion.devChars dev ++ Roboversion.locChars loc))) := by
      have := parseRelease_rt n ns
        (Roboversion.preChars pre ++ (Roboversion.postChars post ++
          (Roboversion.devChars dev ++ Roboversion.locChars loc))) hA1 hA2
      simpa [Roboversion.releaseChars, List.append_assoc] using this
    rw [hw]
    simp only [Roboversion.from_str, hstrip, hep, hrelw, hSpre, hSpost, hSdev,
      hSloc]
    rfl
  · have hw : Roboversion.versionChars
        { epoch := e, release := n :: ns, prerelease := pre, post := post,
          dev := dev, loc := loc } =
        natChars e ++ ('!' :: (Roboversion.releaseChars (n :: ns) ++
          (Roboversion.preChars pre ++ (Roboversion.postChars post ++
            (Roboversion.devChars dev ++ Roboversion.locChars loc))))) := by
      simp [Roboversion.versionChars, Roboversion.epochChars, he,
        List.append_assoc]
    obtain ⟨d0, ds0, hnat, hd0, _⟩ := natChars_cons e
    have hlow0 := (mem_natChars e d0 (by rw [hnat]; exact List.mem_cons_self _ _)).2
    have hstrip : Roboversion.stripV (natChars e ++
        ('!' :: (Roboversion.releaseChars (n :: ns) ++
          (Roboversion.preChars pre ++ (Roboversion.postChars post ++
            (Roboversion.devChars dev ++ Roboversion.locChars loc)))))) =
        natChars e ++ ('!' :: (Roboversion.releaseChars (n :: ns) ++
          (Roboversion.preChars pre ++ (Roboversion.postChars post ++
            (Roboversion.devChars dev ++ Roboversion.locChars loc))))) := by
      rw [hnat, List.cons_append]
      exact stripV_digit d0 _ hd0 hlow0
    have hep := parseEpoch_present e
      (Roboversion.releaseChars (n :: ns) ++
        (Roboversion.preChars pre ++ (Roboversion.postChars post ++
          (Roboversion.devChars dev ++ Roboversion.locChars loc))))
    have hrelw := parseRelease_rt n ns
      (Roboversion.preChars pre ++ (Roboversion.postChars post ++
        (Roboversion.devChars dev ++ Roboversion.locChars loc))) hA1 hA2
    rw [hw]
    simp only [Roboversion.from_str, hstrip, hep, hrelw, hSpre, hSpost, hSdev,
      hSloc]
    rfl

/-! ### Release bump arithmetic -/

theorem map_cast_toNat (t : List Nat) :
    (t.map natToInt).map Int.toNat = t := by
  induction t with
  | nil => rfl
  | cons a t ih => simp [ih, natToInt]

theorem map_set_cast (t : List Nat) :
    ∀ (i : Nat) (x : Int),
      ((t.map natToInt).set i x).map Int.toNat = t.set i x.toNat := by
  induction t with
  | nil => intro i x; simp
  | cons a t ih =>
    intro i x
    cases i with
    | zero =>
      simp only [List.map_cons, List.set_cons_zero, List.map_cons]
      rw [map_cast_toNat]
    | succ j =>
      simp only [List.map_cons, List.set_cons_succ, List.map_cons]
      rw [ih j x]
      simp [natToInt]

theorem getD_map_cast (t : List Nat) :
    ∀ i : Nat, (t.map natToInt).getD i 0 = natToInt (t.getD i 0) := by
  induction t with
  | nil => intro i; simp [natToInt]
  | cons a t ih =>
    intro i
    cases i with
    | zero => simp
    | succ j => simpa using ih j

theorem set_getD_self (t : List Nat) :
    ∀ i : Nat, t.set i (t.getD i 0) = t := by
  induction t with
  | nil => intro i; simp
  | cons a t ih =>
    intro i
    cases i with
    | zero => simp
    | succ j => simpa using ih j

theorem set_all_nonneg (l : List Int) (hl : ∀ x ∈ l, 0 ≤ x) :
    ∀ (i : Nat) (x : Int), 0 ≤ x → ∀ y ∈ l.set i x, 0 ≤ y := by
  induction l with
  | nil => intro i x _ y hy; simp at hy
  | cons a l ih =>
    intro i x hx y hy
    cases i with
    | zero =>
      simp only [List.set_cons_zero, List.mem_cons] at hy
      rcases hy with rfl | hy
      · exact hx
      · exact hl y (List.mem_cons_of_mem _ hy)
    | succ j =>
      simp only [List.set_cons_succ, List.mem_cons] at hy
      rcases hy with rfl | hy
      · exact hl y (List.mem_cons_self _ _)
      · exact ih (fun z hz => hl z (List.mem_cons_of_mem _ hz)) j x hx y hy

theorem get_bumped_pad (t : List Nat) (k i : Nat) (inc : Int)
    (hlen : t.length = i + 1) (hpos : 0 ≤ natToInt (t.getD i 0) + inc) :
    Autoversion.Release.get_bumped (t ++ List.replicate k 0) (some i) inc =
      .ok (t.set i (natToInt (t.getD i 0) + inc).toNat ++ List.replicate k 0) := by
  have hclen : (t ++ List.replicate k (0 : Nat)).length = i + 1 + k := by
    simp [hlen]
  have htake : (t ++ List.replicate k (0 : Nat)).take (i + 1) = t := by
    rw [← hlen]
    exact List.take_left t _
  simp only [Autoversion.Release.get_bumped, htake, hclen]
  have h0 : (i + 1) - (i + 1 + k) = 0 := by omega
  have h1 : (i + 1 + k) - (i + 1) = k := by omega
  rw [h0, h1]
  simp only [List.replicate_zero, List.append_nil]
  rw [getD_map_cast t i]
  set x : Int := natToInt (t.getD i 0) + inc with hx
  have hall : ((t.map natToInt).set i x ++
      List.replicate k (0 : Int)).all (fun z => decide (0 ≤ z)) = true := by
    rw [List.all_eq_true]
    intro z hz
    rw [List.mem_append] at hz
    rcases hz with hz | hz
    · have : 0 ≤ z := by
        refine set_all_nonneg _ ?_ i x hpos z hz
        intro w hw
        rw [List.mem_map] at hw
        obtain ⟨nw, hnw, hwe⟩ := hw
        rw [← hwe]
        exact Int.ofNat_nonneg nw
      simpa using this
    · have : z = 0 := List.eq_of_mem_replicate hz
      simp [this]
  rw [if_pos hall]
  congr 1
  rw [List.map_append, map_set_cast t i x]
  congr 1
  simp

theorem release_bump_there_and_back (t : List Nat) (k i : Nat)
    (hlen : t.length = i + 1) :
    ∃ mid,
      Autoversion.Release.get_bumped (t ++ List.replicate k 0) (some i) 1 =
        .ok mid ∧
      Autoversion.Release.get_bumped mid (some i) (-1) =
        .ok (t ++ List.replicate k 0) := by
  set g := t.getD i 0 with hg
  have h1 : Autoversion.Release.get_bumped (t ++ List.replicate k 0) (some i) 1 =
      .ok (t.set i (g + 1) ++ List.replicate k 0) := by
    have := get_bumped_pad t k i 1 hlen (by simp [natToInt]; omega)
    rw [this]
    congr 2
  refine ⟨t.set i (g + 1) ++ List.replicate k 0, h1, ?_⟩
  have hlen2 : (t.set i (g + 1)).length = i + 1 := by simp [hlen]
  have h2 := get_bumped_pad (t.set i (g + 1)) k i (-1) hlen2 ?side
  case side =>
    have hget : (t.set i (g + 1)).getD i 0 = g + 1 := by
      have hi : i < t.length := by omega
      rw [List.getD_eq_getElem?_getD, List.getElem?_set_self (by simpa using hi)]
      rfl
    rw [hget]
    simp [natToInt]
  · rw [h2]
    have hget : (t.set i (g + 1)).getD i 0 = g + 1 := by
      have hi : i < t.length := by omega
      rw [List.getD_eq_getElem?_getD, List.getElem?_set_self (by simpa using hi)]
      rfl
    rw [hget]
    have hval : (natToInt (g + 1) + -1).toNat = g := by
      simp [natToInt]
    rw [hval, List.set_set, hg, set_getD_self]

/-! ### Claims -/

/-- C1, counterexample: the round-trip law fails as stated.  The valid
Version with release `(1,)` and post `0` prints as `"1"` (because
`__str__` omits a zero post), which parses back with `post = None`, not
`post = 0`. -/
theorem c1_roundtrip_counterexample :
    Roboversion.valid
      { epoch := 0, release := [1], prerelease := none, post := some 0,
        dev := none, loc := none } = true ∧
    Roboversion.from_str (Roboversion.versionChars
      { epoch := 0, release := [1], prerelease := none, post := some 0,
        dev := none, loc := none }) ≠
      some
        { epoch := 0, release := [1], prerelease := none, post := some 0,
          dev := none, loc := none } := by
  constructor
  · decide
  · decide

/-- C1, amended: for every valid Version whose post and dev fields are
not the (output-indistinguishable) explicit zero, formatting via
`Version.__str__` and re-parsing via `Version.from_str` restores every
field exactly (the stored local value is already separator-normalized,
and re-parsing returns it unchanged). -/
theorem c1_roundtrip (v : Roboversion.Version)
    (hv : Roboversion.valid v = true)
    (hp : v.post ≠ some 0) (hdv : v.dev ≠ some 0) :
    Roboversion.from_str (Roboversion.versionChars v) = some v :=
  from_str_versionChars v hv hp hdv

/-- C1, witness: the amended round trip at the concrete version
`2!1.0.3rc0.post4.dev5+ab0.x`. -/
theorem c1_roundtrip_witness :
    (Roboversion.valid
        { epoch := 2, release := [1, 0, 3],
          prerelease := some (.releaseCandidate, 0), post := some 4,
          dev := some 5, loc := some ['a', 'b', '0', '.', 'x'] } = true ∧
      ({ epoch := 2, release := [1, 0, 3],
         prerelease := some (.releaseCandidate, 0), post := some 4,
         dev := some 5,
         loc := some ['a', 'b', '0', '.', 'x'] } : Roboversion.Version).post ≠
        some 0 ∧
      ({ epoch := 2, release := [1, 0, 3],
         prerelease := some (.releaseCandidate, 0), post := some 4,
         dev := some 5,
         loc := some ['a', 'b', '0', '.', 'x'] } : Roboversion.Version).dev ≠
        some 0) ∧
    Roboversion.from_str (Roboversion.versionChars
      { epoch := 2, release := [1, 0, 3],
        prerelease := some (.releaseCandidate, 0), post := some 4,
        dev := some 5, loc := some ['a', 'b', '0', '.', 'x'] }) =
      some
        { epoch := 2, release := [1, 0, 3],
          prerelease := some (.releaseCandidate, 0), post := some 4,
          dev := some 5, loc := some ['a', 'b', '0', '.', 'x'] } :=
  ⟨⟨by decide, by decide, by decide⟩,
    c1_roundtrip _ (by decide) (by decide) (by decide)⟩

/-- C2: when the target is not at a tag (distance present) and its
resolved branch name matches a configured stream branch — scanned in
the order candidate, beta, alpha — the resolver returns the tagged
release bumped at the last component (the default bump index) with
prerelease `(that stream's category, distance)` and nothing else. -/
theorem c2_stream_tip (repo : Git.GitRepo) (name : String)
    (candidate beta alpha : Option String) (post : Option Nat)
    (lp : Git.LocalParam) (d : Nat) (base : Autoversion.Version)
    (tag : String) (next : List Nat) (cat : PrereleaseCategory) (br : String)
    (h1 : repo.describeTag name = .ok (some d, base, tag))
    (h2 : Autoversion.Release.get_bumped base.release none 1 = .ok next)
    (h3 : (Git.streamList candidate beta alpha).find?
      (fun p => repo.branchOf name = p.2) = some (cat, br)) :
    Git.getVersion repo name candidate beta alpha post lp none =
      .ok ([], { release := next, prerelease := some (cat, (d : Int)),
                 post := none, dev := none, loc := none }) := by
  simp only [Git.getVersion, h1, h2, h3]

/-- C2, witness: the spec scenario — target at the tip of the
configured candidate branch `rel`, two commits since the tag `v1.2.3`,
resolves to `1.2.4rc2`. -/
theorem c2_stream_tip_witness :
    (Git.repoRC.describeTag "HEAD" = .ok (some 2, Git.v123, "v1.2.3") ∧
      Autoversion.Release.get_bumped Git.v123.release none 1 = .ok [1, 2, 4] ∧
      (Git.streamList (some "rel") none none).find?
        (fun p => Git.repoRC.branchOf "HEAD" = p.2) =
          some (PrereleaseCategory.releaseCandidate, "rel")) ∧
    Git.getVersion Git.repoRC "HEAD" (some "rel") none none none
        .autoLocal none =
      .ok ([], { release := [1, 2, 4],
                 prerelease := some (PrereleaseCategory.releaseCandidate,
                   ((2 : Nat) : Int)),
                 post := none, dev := none, loc := none }) :=
  ⟨⟨rfl, rfl, by decide⟩,
    c2_stream_tip Git.repoRC "HEAD" (some "rel") none none none
      .autoLocal 2 Git.v123 "v1.2.3" [1, 2, 4]
      PrereleaseCategory.releaseCandidate "rel" rfl rfl (by decide)⟩

/-- C3, counterexample: the claim's "local set to the target's
abbreviated commit id" fails when the abbreviated hash is digit-only
with a leading zero.  The zero-distance branch passes the hash to the
`Version` constructor, which routes it through `LocalVersion.from_str`;
that converts the digit-only segment with `int(...)`, so the hash
`"0123456"` is stored as the int `123456` and the version prints
`+123456`, not the abbreviated commit id. -/
theorem c3_local_only_counterexample :
    Git.repoWarn0.abbrevOf "HEAD" = "0123456" ∧
    Git.getVersion Git.repoWarn0 "HEAD" (some "rel") none (some "alp") none
        .autoLocal none =
      .ok ([Git.warnMsg "HEAD"],
        { release := [1, 0, 0], prerelease := none, post := none,
          dev := none, loc := some [Autoversion.LocalSeg.num 123456] }) ∧
    Autoversion.LocalVersion.str [Autoversion.LocalSeg.num 123456] ≠
      "0123456" :=
  ⟨rfl, rfl, by decide⟩

/-- C3, amended: when the target is not at a tag, its branch name
matches no configured stream, and the commit count of the target
excluding the history of the open (least mature configured, i.e.
last-scanned) stream branch is zero, the resolver logs the
"development ref in the history of an upstream prerelease branch"
warning and succeeds with the tagged release unbumped, no prerelease,
dev or post, and local set to the `LocalVersion` parsed from the
abbreviated commit id (digit-only segments int-normalized, so leading
zeros are dropped; for a letter-containing hash this parse preserves
the id). -/
theorem c3_local_only (repo : Git.GitRepo) (name : String)
    (candidate beta alpha : Option String) (post : Option Nat)
    (lp : Git.LocalParam) (i : Option Nat) (d : Nat)
    (base : Autoversion.Version) (tag : String) (next : List Nat)
    (lastCat : PrereleaseCategory) (lastBranch : String)
    (segs : List Autoversion.LocalSeg)
    (h1 : repo.describeTag name = .ok (some d, base, tag))
    (h2 : Autoversion.Release.get_bumped base.release i 1 = .ok next)
    (h3 : (Git.streamList candidate beta alpha).find?
      (fun p => repo.branchOf name = p.2) = none)
    (h4 : (Git.streamList candidate beta alpha).getLast? =
      some (lastCat, lastBranch))
    (h5 : repo.commits name (some lastBranch) = 0)
    (h6 : Autoversion.LocalVersion.from_str (repo.abbrevOf name) = .ok segs) :
    Git.getVersion repo name candidate beta alpha post lp i =
      .ok ([Git.warnMsg name],
        { release := base.release, prerelease := none, post := none,
          dev := none, loc := some segs }) := by
  simp only [Git.getVersion, h1, h2, h3, h4, h5, if_true, h6]

/-- C3, witness: the spec scenario — the target is an ancestor of the
open alpha stream branch `alp` (ancestor-exclusive commit count zero),
so resolution warns and returns `1.0.0+abc1234`, the hash `abc1234`
parsing to the single string segment `abc1234`. -/
theorem c3_local_only_witness :
    (Git.repoWarn.describeTag "HEAD" = .ok (some 2, Git.v100, "v1.0.0") ∧
      Autoversion.Release.get_bumped Git.v100.release none 1 = .ok [1, 0, 1] ∧
      (Git.streamList (some "rel") none (some "alp")).find?
        (fun p => Git.repoWarn.branchOf "HEAD" = p.2) = none ∧
      (Git.streamList (some "rel") none (some "alp")).getLast? =
        some (PrereleaseCategory.alpha, "alp") ∧
      Git.repoWarn.commits "HEAD" (some "alp") = 0 ∧
      Autoversion.LocalVersion.from_str (Git.repoWarn.abbrevOf "HEAD") =
        .ok [Autoversion.LocalSeg.txt "abc1234"]) ∧
    Git.getVersion Git.repoWarn "HEAD" (some "rel") none (some "alp") none
        .autoLocal none =
      .ok ([Git.warnMsg "HEAD"],
        { release := [1, 0, 0], prerelease := none, post := none,
          dev := none, loc := some [Autoversion.LocalSeg.txt "abc1234"] }) :=
  ⟨⟨rfl, rfl, by decide, by decide, by decide, rfl⟩,
    c3_local_only Git.repoWarn "HEAD" (some "rel") none (some "alp") none
      .autoLocal none 2 Git.v100 "v1.0.0" [1, 0, 1]
      PrereleaseCategory.alpha "alp" [Autoversion.LocalSeg.txt "abc1234"]
      rfl rfl (by decide) (by decide) (by decide) rfl⟩

/-- C4, evaluation at the failing input: the recognized return code 128
("no tag found") is indeed the only handled failure — any other return
code propagates as the same `CalledProcessError` — but the handled
branch itself crashes: it calls `Version.from_datetime()`, an attribute
`autoversion.version.Version` does not define, so instead of the
claimed date-based fallback the resolver raises `AttributeError`. -/
theorem c4_no_tag_fallback_bug :
    Git.getVersion Git.repoNoTag "HEAD" none none none none .autoLocal none =
      .error .attributeError ∧
    Git.getVersion Git.repoFail "HEAD" none none none none .autoLocal none =
      .error (.calledProcessError 1) :=
  ⟨rfl, rfl⟩

/-- C5, counterexample: bumping release `1.2.3` at index 0 by `+1`
gives `2.0.0` (later components are zeroed), and bumping that by `-1`
at index 0 gives `1.0.0`, whose string differs from `1.2.3`. -/
theorem c5_release_bump_counterexample :
    Autoversion.Release.get_bumped [1, 2, 3] (some 0) 1 = .ok [2, 0, 0] ∧
    Autoversion.Release.get_bumped [2, 0, 0] (some 0) (-1) = .ok [1, 0, 0] ∧
    Autoversion.Release.str [1, 0, 0] ≠ Autoversion.Release.str [1, 2, 3] :=
  ⟨rfl, rfl, by decide⟩

/-- C5, amended: bumping at index `i` by `+1` and then by `-1` restores
the original release string provided `i` is in range and every
component after `i` is zero (the release is `t ++ 0-padding` with
`t.length = i + 1`); without that restriction the `+1` bump zeroes the
later components and the claim fails. -/
theorem c5_release_bump_inverse (t : List Nat) (k i : Nat)
    (hlen : t.length = i + 1) :
    ∃ mid out,
      Autoversion.Release.get_bumped (t ++ List.replicate k 0) (some i) 1 =
        .ok mid ∧
      Autoversion.Release.get_bumped mid (some i) (-1) = .ok out ∧
      Autoversion.Release.str out =
        Autoversion.Release.str (t ++ List.replicate k 0) := by
  obtain ⟨mid, hm1, hm2⟩ := release_bump_there_and_back t k i hlen
  exact ⟨mid, t ++ List.replicate k 0, hm1, hm2, rfl⟩

/-- C5, witness: the amended bump inverse at release `1.2.0`
(components after index 1 all zero), bumped at index 1. -/
theorem c5_release_bump_inverse_witness :
    ([1, 2].length = 1 + 1) ∧
    (∃ mid out,
      Autoversion.Release.get_bumped ([1, 2] ++ List.replicate 1 0) (some 1) 1 =
        .ok mid ∧
      Autoversion.Release.get_bumped mid (some 1) (-1) = .ok out ∧
      Autoversion.Release.str out =
        Autoversion.Release.str ([1, 2] ++ List.replicate 1 0)) :=
  ⟨by decide, c5_release_bump_inverse [1, 2] 1 1 (by decide)⟩

/-- C6: `Version.get_bumped` always fails when targeting `local` (it
falls through to the "not a bumpable version field" `ValueError`, or the
index-conflict `ValueError` when an index is also given); always fails
when targeting `prerelease` on a version without one (`AttributeError`
on `None`, or the index-conflict `ValueError`); and always fails when a
release index is supplied with any non-`release` target field. -/
theorem c6_bump_field_exclusivity (v : Autoversion.Version)
    (i : Option Nat) (f : String) (k : Int)
    (h : f = "local" ∨ (f = "prerelease" ∧ v.prerelease = none) ∨
      (i.isSome = true ∧ f ≠ "release")) :
    ∃ e, Autoversion.Version.get_bumped v i f k = .error e := by
  rcases h with rfl | ⟨rfl, hpre⟩ | ⟨hi, hf⟩
  · by_cases hi : i.isSome = true
    · exact ⟨.valueError, by
        simp only [Autoversion.Version.get_bumped, hi, if_true]
        rw [if_neg (by decide)]⟩
    · refine ⟨.valueError, ?_⟩
      simp only [Autoversion.Version.get_bumped, hi]
      rw [if_neg (by decide)]
      simp only [Bool.false_eq_true, if_false]
      rw [if_neg (by decide), if_neg (by decide), if_neg (by decide)]
  · by_cases hi : i.isSome = true
    · exact ⟨.valueError, by
        simp only [Autoversion.Version.get_bumped, hi, if_true]
        rw [if_neg (by decide)]⟩
    · refine ⟨.attributeError, ?_⟩
      simp only [Autoversion.Version.get_bumped, hi]
      rw [if_neg (by decide)]
      simp only [Bool.false_eq_true, if_false, if_true, hpre]
  · refine ⟨.valueError, ?_⟩
    simp only [Autoversion.Version.get_bumped, hi, if_true]
    rw [if_neg hf]

/-- C6, witness: bumping `local` on a concrete version fails. -/
theorem c6_bump_field_exclusivity_witness :
    ∃ e, Autoversion.Version.get_bumped
      { release := [1, 2, 3], prerelease := none, post := none, dev := none,
        loc := none } none "local" 1 = .error e :=
  c6_bump_field_exclusivity _ none "local" 1 (Or.inl rfl)

/-- C7, evaluation at the failing input: bumping `post` on a version
that has a post value does not return a version with the post
incremented — the branch's `return self.__class__(release=release, ...)`
reads the local name `release`, which is only assigned in the untaken
`release` branch, so the call raises `UnboundLocalError` for every
input with `post` set. -/
theorem c7_post_bump_crash :
    Autoversion.Version.get_bumped
      { release := [1, 2, 3], prerelease := none, post := some 1, dev := none,
        loc := none } none "post" 1 = .error .unboundLocalError := rfl

/-- C8: when the history provider reports the target exactly at a
PEP440 tag (distance `none`), the resolver returns the tagged version
unchanged, regardless of configured branches and of the post and local
arguments. -/
theorem c8_exact_tag (repo : Git.GitRepo) (name : String)
    (candidate beta alpha : Option String) (post : Option Nat)
    (lp : Git.LocalParam) (i : Option Nat) (base : Autoversion.Version)
    (tag : String)
    (h : repo.describeTag name = .ok (none, base, tag)) :
    Git.getVersion repo name candidate beta alpha post lp i =
      .ok ([], base) := by
  simp only [Git.getVersion, h]

/-- C8, witness: the spec scenario — target exactly at the tag
`v1.2.3` resolves to `1.2.3`, even with branches and a post number
supplied. -/
theorem c8_exact_tag_witness :
    Git.repoTag.describeTag "HEAD" = .ok (none, Git.v123, "v1.2.3") ∧
    Git.getVersion Git.repoTag "HEAD" (some "rel") none (some "alp")
        (some 9) .autoLocal none =
      .ok ([], Git.v123) :=
  ⟨rfl, c8_exact_tag Git.repoTag "HEAD" (some "rel") none (some "alp")
    (some 9) .autoLocal none Git.v123 "v1.2.3" rfl⟩

/-- C9, counterexample: the claim's "local is the target's abbreviated
commit id" fails when the abbreviated hash is digit-only with a leading
zero.  The hash reaches the `Version` constructor through the local
component, so `LocalVersion.from_str` int-normalizes it: the hash
`"0123456"` is stored as the int `123456` and the version prints
`1.2.4.dev5+123456`, not the abbreviated commit id. -/
theorem c9_dev_fallback_counterexample :
    Git.repoDev0.abbrevOf "HEAD" = "0123456" ∧
    Git.getVersion Git.repoDev0 "HEAD" none none none none .autoLocal none =
      .ok ([], { release := [1, 2, 4], prerelease := none, post := none,
                 dev := some 5,
                 loc := some [Autoversion.LocalSeg.num 123456] }) ∧
    Autoversion.LocalVersion.str [Autoversion.LocalSeg.num 123456] ≠
      "0123456" :=
  ⟨rfl, rfl, by decide⟩

/-- C9, amended: with no stream branches configured, a present nonzero
distance `d`, no post argument and the default auto-local, the
resolver returns the tagged release bumped at the last component with
`dev = d` and local set to the `LocalVersion` parsed from the
abbreviated commit id (digit-only segments int-normalized, so leading
zeros are dropped; for a letter-containing hash this parse preserves
the id). -/
theorem c9_dev_fallback (repo : Git.GitRepo) (name : String) (d : Nat)
    (base : Autoversion.Version) (tag : String) (next : List Nat)
    (segs : List Autoversion.LocalSeg)
    (h1 : repo.describeTag name = .ok (some d, base, tag))
    (_h2 : 0 < d)
    (h3 : Autoversion.Release.get_bumped base.release none 1 = .ok next)
    (h4 : Autoversion.LocalVersion.from_str (repo.abbrevOf name) = .ok segs) :
    Git.getVersion repo name none none none none .autoLocal none =
      .ok ([], { release := next, prerelease := none, post := none,
                 dev := some d, loc := some segs }) := by
  simp only [Git.getVersion, h1, h3, h4, Git.streamList, Git.finishComponents,
    List.append_nil, List.find?_nil, List.getLast?_nil]

/-- C9, witness: the spec scenario — no stream branches, five commits
since the tag `v1.2.3`, resolving to `1.2.4.dev5+abc1234`, the hash
`abc1234` parsing to the single string segment `abc1234`. -/
theorem c9_dev_fallback_witness :
    (Git.repoDev.describeTag "HEAD" = .ok (some 5, Git.v123, "v1.2.3") ∧
      0 < 5 ∧
      Autoversion.Release.get_bumped Git.v123.release none 1 = .ok [1, 2, 4] ∧
      Autoversion.LocalVersion.from_str (Git.repoDev.abbrevOf "HEAD") =
        .ok [Autoversion.LocalSeg.txt "abc1234"]) ∧
    Git.getVersion Git.repoDev "HEAD" none none none none .autoLocal none =
      .ok ([], { release := [1, 2, 4], prerelease := none, post := none,
                 dev := some 5,
                 loc := some [Autoversion.LocalSeg.txt "abc1234"] }) :=
  ⟨⟨rfl, by decide, rfl, rfl⟩,
    c9_dev_fallback Git.repoDev "HEAD" 5 Git.v123 "v1.2.3" [1, 2, 4]
      [Autoversion.LocalSeg.txt "abc1234"] rfl (by decide) rfl rfl⟩

/-- C10: whenever the target's branch name matches a configured stream
branch, a caller-supplied post number has no effect — the result equals
the result of the same call with no post argument, and the returned
version carries no post field (the stream-tip return happens before the
post substitution step). -/
theorem c10_post_ignored_on_stream_tip (repo : Git.GitRepo) (name : String)
    (candidate beta alpha : Option String) (post : Option Nat)
    (lp : Git.LocalParam) (d : Nat) (base : Autoversion.Version)
    (tag : String) (next : List Nat) (cat : PrereleaseCategory) (br : String)
    (h1 : repo.describeTag name = .ok (some d, base, tag))
    (h2 : Autoversion.Release.get_bumped base.release none 1 = .ok next)
    (h3 : (Git.streamList candidate beta alpha).find?
      (fun p => repo.branchOf name = p.2) = some (cat, br)) :
    Git.getVersion repo name candidate beta alpha post lp none =
      Git.getVersion repo name candidate beta alpha none lp none ∧
    ∀ log w, Git.getVersion repo name candidate beta alpha post lp none =
      .ok (log, w) → w.post = none := by
  have hres : ∀ p : Option Nat,
      Git.getVersion repo name candidate beta alpha p lp none =
        .ok ([], { release := next, prerelease := some (cat, (d : Int)),
                   post := none, dev := none, loc := none }) := by
    intro p
    simp only [Git.getVersion, h1, h2, h3]
  constructor
  · rw [hres post, hres none]
  · intro log w hw
    rw [hres post] at hw
    cases hw
    rfl

/-- C10, witness: at the candidate-branch tip, passing `post = 7`
yields the same `1.2.4rc2` with no post field. -/
theorem c10_post_ignored_witness :
    (Git.repoRC.describeTag "HEAD" = .ok (some 2, Git.v123, "v1.2.3") ∧
      Autoversion.Release.get_bumped Git.v123.release none 1 = .ok [1, 2, 4] ∧
      (Git.streamList (some "rel") none none).find?
        (fun p => Git.repoRC.branchOf "HEAD" = p.2) =
          some (PrereleaseCategory.releaseCandidate, "rel")) ∧
    Git.getVersion Git.repoRC "HEAD" (some "rel") none none (some 7)
        .autoLocal none =
      Git.getVersion Git.repoRC "HEAD" (some "rel") none none none
        .autoLocal none :=
  ⟨⟨rfl, rfl, by decide⟩,
    (c10_post_ignored_on_stream_tip Git.repoRC "HEAD" (some "rel") none none
      (some 7) .autoLocal 2 Git.v123 "v1.2.3" [1, 2, 4]
      PrereleaseCategory.releaseCandidate "rel" rfl rfl (by decide)).1⟩
